import Mathlib

namespace GPM

/-!
Verification development for the gpm package-research pipeline.

The TypeScript sources are shallowly embedded: strings are lists of
characters, each external call (HTTP fetch, child-process exec) is an
oracle field describing that call's outcome, and every function that
performs external calls also returns the list of calls it made, in
order.  JavaScript exceptions are `Except Unit`.  The regular
expressions of the source are compiled by hand to executable scanners
whose semantics follow the JS backtracking engine (leftmost match,
ordered alternation, greedy `\s*`/`+` pieces, lazy `([\s\S]*?)`).
-/

/-- Strings of the embedded programs: JS strings as lists of characters. -/
abbrev Str := List Char

/-- Character list of a Lean string literal. -/
def chars (s : String) : Str := s.data

/-- JavaScript whitespace (the `\s` class and `String.prototype.trim`):
space, tab, line terminators, vertical tab, form feed, NBSP, BOM and the
Unicode space separators. -/
def jsWs (c : Char) : Bool :=
  c = ' ' || c = '\t' || c = '\n' || c = '\r' ||
  c.val = 11 || c.val = 12 || c.val = 0xa0 || c.val = 0xfeff ||
  c.val = 0x1680 || (0x2000 ≤ c.val && c.val ≤ 0x200a) ||
  c.val = 0x2028 || c.val = 0x2029 || c.val = 0x202f || c.val = 0x205f ||
  c.val = 0x3000

/-- JavaScript line terminators (the characters a `.` does not match). -/
def lineTerm (c : Char) : Bool :=
  c = '\n' || c = '\r' || c.val = 0x2028 || c.val = 0x2029

/-- Does `l` start with the pattern `pat`? -/
def begins : Str → Str → Bool
  | [], _ => true
  | _ :: _, [] => false
  | p :: ps, c :: cs => p == c && begins ps cs

/-- First occurrence of the (non-empty) pattern `pat` in `l`: the part
before the occurrence and the part after it. -/
def splitFirst (pat : Str) : Str → Option (Str × Str)
  | [] => none
  | c :: cs =>
    if begins pat (c :: cs) then some ([], (c :: cs).drop pat.length)
    else
      match splitFirst pat cs with
      | some (b, r) => some (c :: b, r)
      | none => none

/-- JS `String.prototype.includes` for a non-empty pattern. -/
def containsSub (pat l : Str) : Bool := (splitFirst pat l).isSome

/-- Fuel-indexed splitting loop; each removed occurrence consumes at
least one character, so `l.length + 1` units of fuel always suffice. -/
def jsSplitAux (pat : Str) : Nat → Str → List Str
  | 0, l => [l]
  | fuel + 1, l =>
    match splitFirst pat l with
    | none => [l]
    | some (b, r) => b :: jsSplitAux pat fuel r

/-- JS `String.prototype.split` with a non-empty separator (no call site
of the embedded code splits on an empty string). -/
def jsSplit (pat : Str) (l : Str) : List Str := jsSplitAux pat (l.length + 1) l

/-- Leading-whitespace strip (left half of `trim`). -/
def trimL (l : Str) : Str := l.dropWhile jsWs

/-- Trailing-whitespace strip (right half of `trim`). -/
def trimR (l : Str) : Str := (trimL l.reverse).reverse

/-- JS `String.prototype.trim`. -/
def trimChars (l : Str) : Str := trimR (trimL l)

/-! ### Fenced code-block extraction

Both extractors scan for the JS regex
`` /```(?:tag1|tag2|...)?WS([\s\S]*?)```/g `` where `WS` is `\s*` in
`src/utils/researchPackage.ts` and absent in the generated server.  The
backtracking engine reduces to: at the leftmost position starting with
three backticks, commit to the first alternation tag that matches (the
tag characters contain no backtick, so a failed overall match cannot be
rescued by a shorter tag), greedily drop whitespace when `WS` is
present, and close at the earliest following triple backtick; if no
closing fence exists the scan resumes one character further right. -/

/-- Literal triple backtick (the character `\x60`). -/
def ticks : Str := ['\x60', '\x60', '\x60']

/-- Ordered alternation `(?:a|b|...)?`: the first alternative that is a
prefix is committed, the empty tag otherwise. Returns the remainder. -/
def matchTag (alts : List Str) (l : Str) : Str × Str :=
  match alts with
  | [] => ([], l)
  | a :: rest => if begins a l then (a, l.drop a.length) else matchTag rest l

/-- Position after the committed tag and, when the regex carries
`\s*`, after the greedily consumed whitespace run. -/
def afterTag (alts : List Str) (ws : Bool) (r0 : Str) : Str :=
  if ws then ((matchTag alts r0).2).dropWhile jsWs else (matchTag alts r0).2

/-- One regex match attempt of the global scan: the content of the first
fenced block and the text after its closing fence. -/
def findFence (alts : List Str) (ws : Bool) : Str → Option (Str × Str)
  | [] => none
  | c :: cs =>
    if begins ticks (c :: cs) then
      match splitFirst ticks (afterTag alts ws (cs.drop 2)) with
      | some (content, rest) => some (content, rest)
      | none => findFence alts ws cs
    else findFence alts ws cs

/-- Fuel-indexed global scan; every match consumes at least one
character, so `l.length + 1` units of fuel always suffice. -/
def fencedAux (alts : List Str) (ws : Bool) : Nat → Str → List Str
  | 0, _ => []
  | fuel + 1, l =>
    match findFence alts ws l with
    | none => []
    | some (content, rest) =>
      (if trimChars content = [] then [] else [trimChars content]) ++
        fencedAux alts ws fuel rest

/-- The global regex scan: trimmed contents of all fenced blocks, in
document order, skipping blocks with empty trimmed content. -/
def fenced (alts : List Str) (ws : Bool) (l : Str) : List Str :=
  fencedAux alts ws (l.length + 1) l

/-- The alternation list of `extractExampleCode` in
`src/utils/researchPackage.ts`: `(?:javascript|js|typescript|ts)?`. -/
def srcTags : List Str := [chars "javascript", chars "js", chars "typescript", chars "ts"]

/-- The alternation list of `extractExamplesFromReadme` in the generated
server: `(?:javascript|js|python|py|ruby|rb)?`. -/
def serverTags : List Str :=
  [chars "javascript", chars "js", chars "python", chars "py", chars "ruby", chars "rb"]

/-- Function `extractExampleCode` of `src/utils/researchPackage.ts` (lines
427-441): regex `` /```(?:javascript|js|typescript|ts)?\s*([\s\S]*?)```/g ``
over the readme, pushing each non-empty trimmed capture. -/
def extractExampleCode (readme : Str) : List Str := fenced srcTags true readme

/-- Function `extractExamplesFromReadme` of the generated server (part_000 lines
962-978): regex `` /```(?:javascript|js|python|py|ruby|rb)?([\s\S]*?)```/g ``;
the `if (!readme) return []` guard is subsumed, the scan of an empty
string already yields `[]`. -/
def extractExamplesFromReadme (readme : Str) : List Str :=
  fenced serverTags false readme

/-! ### Data model of the generated MCP server (part_000)

The server template in `createMcpServer.ts` (source file part_000)
contains its own research pipeline.  Metadata objects are JS objects
whose field values the pipeline stores but never traverses; they are
modelled as insertion-ordered association lists with atomic values. -/

deriving instance DecidableEq for Except

/-- Atomic JS value stored in a metadata field. -/
inductive MVal where
  | str (s : Str)
  | int (n : Int)
  | undefined
deriving DecidableEq, Repr

/-- A JS object in insertion order, as `Map`-like association list. -/
abbrev Meta := List (String × MVal)

/-- JS property assignment `obj.k = v`: update in place, else append. -/
def metaSet : Meta → String → MVal → Meta
  | [], k, v => [(k, v)]
  | (k0, v0) :: rest, k, v =>
    if k0 = k then (k, v) :: rest else (k0, v0) :: metaSet rest k v

/-- Fields of a RubyGems.org `gems/{name}.json` response that the
pipeline reads (absent fields are JS `undefined`). -/
structure RubyGemsData where
  name : Option Str := none
  version : Option Str := none
  info : Option Str := none
  authors : Option Str := none
  homepage_uri : Option Str := none
  documentation_uri : Option Str := none
  source_code_uri : Option Str := none
  downloads : Option Int := none
deriving DecidableEq, Repr

/-- JS `obj.field` for an optional string field. -/
def optS : Option Str → MVal
  | some s => .str s
  | none => .undefined

/-- JS `obj.field` for an optional numeric field. -/
def optI : Option Int → MVal
  | some n => .int n
  | none => .undefined

/-- Outcome of a `fetch` whose body is then parsed with `.json()`. -/
inductive FetchOut (α : Type) where
  | err
  | notOk
  | ok (data : α)
deriving DecidableEq, Repr

/-- External calls of the embedded programs, in the order performed. -/
inductive Event where
  | researchStarted
  | detectNpmView
  | detectPipShow
  | detectGemInfo
  | npmViewJson
  | npmViewReadme
  | pythonBranchRun
  | rubyRegistryFetch
  | gemInfoExec
  | rubyReadmeFetch
  | pythonAdapterRun
  | npmRegistryFetch
  | githubReadmeFetch (url : Str)
  | gemInfoRemoteExec
  | gemSpecExec
  | rubygemsApiFetch
  | saveResearch
  | errorLogged
deriving DecidableEq, Repr

/-- The variables a branch of the server `researchPackage` switch sets
and the final record returns (its enrichment-only fields
`apiReference`, `framework`, `dependencies`, `popularityMetrics`,
`codeAnalysis`, `usagePatterns` and the timestamp are not observed by
any claim and are omitted; every computation producing them sits inside
its own `try`/`catch` or inside a helper with a catch-all return, so
omitting them does not change the branch's success/throw behaviour). -/
structure BranchOut where
  metadata : Meta
  readme : Str
  examples : List Str
  basicUsage : Str
deriving DecidableEq, Repr

/-- The record returned by the server `researchPackage` (part_000 lines
915-929), restricted to the claim-observed fields. -/
structure PartRecord where
  metadata : Meta
  readme : Str
  examples : List Str
  basicUsage : Str
  type : Str
deriving DecidableEq, Repr

namespace Server

/-- Outcomes of the three existence checks of `detectPackageType`
(part_000 lines 938-959): `npm view <name> name`, `pip show <name>`,
`gem info <name>`. -/
structure DetectOracle where
  npmView : Except Unit Unit
  pipShow : Except Unit Unit
  gemInfo : Except Unit Unit
deriving Repr

/-- Outcomes of the external calls of the server ruby branch (part_000
lines 745-905): the RubyGems.org fetch, the `gem info` run of the
`else` arm, the `gem info` run of the `catch` arm, and the value of
`fetchRubyReadme` (part_000 lines 1475-1586, a helper whose outermost
`catch` returns a string, so it never throws; an empty string is
possible, e.g. an `ok` GitHub README response whose body is empty). -/
structure RubyOracle where
  registry : FetchOut RubyGemsData
  gemInfoFirst : Except Unit Str
  gemInfoRetry : Except Unit Str
  readmeResult : Str
deriving Repr

/-- Outcomes of the first two external calls of the server node branch
(part_000 lines 396-417): `npm view <name> --json` composed with
`JSON.parse` (a failure of either is a thrown exception reaching the
case level), and `npm view <name> readme`. -/
structure NodeOracle where
  viewJson : Except Unit Meta
  viewReadme : Except Unit Str
deriving Repr

/-- One research invocation's external-call outcomes. The python branch
(part_000 lines 565-742) is not observed by any claim and is supplied
as an outcome directly; it can throw (its framework heuristic calls
`metadata.keywords.toLowerCase()` unguarded). -/
structure Oracle where
  detect : DetectOracle
  node : NodeOracle
  python : Except Unit BranchOut
  ruby : RubyOracle
deriving Repr

/-- Function `detectPackageType` (part_000 lines 938-959): try `npm view`, on
failure `pip show`, on failure `gem info`, on failure default to
`node`. Returns the ecosystem string and the checks attempted. -/
def detectPackageType (o : DetectOracle) : Str × List Event :=
  match o.npmView with
  | .ok _ => (chars "node", [.detectNpmView])
  | .error _ =>
    match o.pipShow with
    | .ok _ => (chars "python", [.detectNpmView, .detectPipShow])
    | .error _ =>
      match o.gemInfo with
      | .ok _ => (chars "ruby", [.detectNpmView, .detectPipShow, .detectGemInfo])
      | .error _ => (chars "node", [.detectNpmView, .detectPipShow, .detectGemInfo])

/-- One line of the `gem info` fallback loop (part_000 lines 774-784
and 794-804): `line.includes('Version:')` sets
`metadata.version = line.split('Version:')[1].trim()`, and likewise
`Summary:` sets `metadata.description`. -/
def gemLineUpdate (m : Meta) (line : Str) : Meta :=
  let m1 :=
    if containsSub (chars "Version:") line then
      metaSet m "version" (.str (trimChars ((jsSplit (chars "Version:") line).getD 1 [])))
    else m
  if containsSub (chars "Summary:") line then
    metaSet m1 "description" (.str (trimChars ((jsSplit (chars "Summary:") line).getD 1 [])))
  else m1

/-- The `gem info` fallback parse of the server ruby branch:
`metadata.name = packageName` then the per-line `Version:`/`Summary:`
scan over `stdout.split('\n')`. -/
def gemParse (pkg : Str) (stdout : Str) : Meta :=
  (jsSplit (chars "\n") stdout).foldl gemLineUpdate (metaSet [] "name" (.str pkg))

/-- The metadata object literal built from an `ok` RubyGems.org
response (part_000 lines 754-763). -/
def metaOfGemData (d : RubyGemsData) : Meta :=
  [("name", optS d.name), ("version", optS d.version),
   ("description", optS d.info), ("authors", optS d.authors),
   ("homepage", optS d.homepage_uri),
   ("documentation", optS d.documentation_uri),
   ("sourceCode", optS d.source_code_uri), ("downloads", optI d.downloads)]

/-- The ruby case of the server `researchPackage` switch (part_000
lines 745-905): RubyGems.org JSON endpoint first; on a non-ok response
`gem info` inside the same `try`; on any thrown error (fetch rejection,
bad JSON, or the `else`-arm `gem info` throwing) the `catch` runs `gem
info` once more, and if that also throws the metadata stays `{}`.  Then
`fetchRubyReadme` (which never throws) and example extraction. -/
def rubyCase (o : RubyOracle) (pkg : Str) : BranchOut × List Event :=
  let mEv : Meta × List Event :=
    match o.registry with
    | .ok d => (metaOfGemData d, [.rubyRegistryFetch])
    | .notOk =>
      match o.gemInfoFirst with
      | .ok out => (gemParse pkg out, [.rubyRegistryFetch, .gemInfoExec])
      | .error _ =>
        match o.gemInfoRetry with
        | .ok out =>
          (gemParse pkg out, [.rubyRegistryFetch, .gemInfoExec, .gemInfoExec])
        | .error _ => ([], [.rubyRegistryFetch, .gemInfoExec, .gemInfoExec])
    | .err =>
      match o.gemInfoRetry with
      | .ok out => (gemParse pkg out, [.rubyRegistryFetch, .gemInfoExec])
      | .error _ => ([], [.rubyRegistryFetch, .gemInfoExec])
  let readme := o.readmeResult
  let examples := extractExamplesFromReadme readme
  ({ metadata := mEv.1, readme := readme, examples := examples,
     basicUsage := examples.headD [] }, mEv.2 ++ [.rubyReadmeFetch])

/-- The node case of the server `researchPackage` switch (part_000
lines 396-417 for the modelled fields): `npm view --json` plus
`JSON.parse` (not wrapped in an inner try: a failure throws out of the
case), then `npm view readme` (wrapped: a failure leaves the readme
empty), then example extraction. -/
def nodeCase (o : NodeOracle) : Except Unit BranchOut × List Event :=
  match o.viewJson with
  | .error e => (.error e, [.npmViewJson])
  | .ok m =>
    let readme := match o.viewReadme with | .ok s => s | .error _ => []
    let examples := extractExamplesFromReadme readme
    (.ok { metadata := m, readme := readme, examples := examples,
           basicUsage := examples.headD [] },
     [.npmViewJson, .npmViewReadme])

/-- The ecosystem resolution and branch switch of the server
`researchPackage` (part_000 lines 375-913): resolve `'auto'` through
`detectPackageType`, then run the case of the resolved ecosystem
string; the `default` arm throws `Unsupported package type`. -/
def dispatch (o : Oracle) (pkg ty : Str) :
    Str × (Except Unit BranchOut × List Event) :=
  if ty = chars "auto" then
    let d := detectPackageType o.detect
    if d.1 = chars "node" then (d.1, (nodeCase o.node).1, d.2 ++ (nodeCase o.node).2)
    else if d.1 = chars "python" then (d.1, o.python, d.2 ++ [.pythonBranchRun])
    else (d.1, (.ok (rubyCase o.ruby pkg).1), d.2 ++ (rubyCase o.ruby pkg).2)
  else if ty = chars "node" then (ty, (nodeCase o.node).1, (nodeCase o.node).2)
  else if ty = chars "python" then (ty, o.python, [.pythonBranchRun])
  else if ty = chars "ruby" then (ty, (.ok (rubyCase o.ruby pkg).1), (rubyCase o.ruby pkg).2)
  else (ty, (.error ()), [])

/-- The server `researchPackage` (part_000 lines 371-935): log the
research start, dispatch, assemble the record; the outermost `catch`
logs the error and rethrows it. -/
def researchPackage (o : Oracle) (pkg ty : Str) :
    Except Unit PartRecord × List Event :=
  match (dispatch o pkg ty).2.1 with
  | .ok b =>
    (.ok { metadata := b.metadata, readme := b.readme, examples := b.examples,
           basicUsage := b.basicUsage, type := (dispatch o pkg ty).1 },
     .researchStarted :: (dispatch o pkg ty).2.2)
  | .error e =>
    (.error e, .researchStarted :: ((dispatch o pkg ty).2.2 ++ [.errorLogged]))

/-- The server cache: a JS `Map` keyed by `` `${packageName}:${type}` ``
in insertion order. -/
abbrev Cache := List (Str × PartRecord)

/-- JS `Map.prototype.get` composed with `has`. -/
def cacheGet (c : Cache) (k : Str) : Option PartRecord :=
  match c with
  | [] => none
  | (k0, v) :: rest => if k0 = k then some v else cacheGet rest k

/-- JS `Map.prototype.set`: replace in place or append. -/
def cacheSet (c : Cache) (k : Str) (v : PartRecord) : Cache :=
  match c with
  | [] => [(k, v)]
  | (k0, v0) :: rest =>
    if k0 = k then (k, v) :: rest else (k0, v0) :: cacheSet rest k v

/-- The miss path of the server `getPackageInfo` (part_000 lines
361-367): run `researchPackage` and store the result unconditionally
under `` `${packageName}:${type}` `` (an exception propagates before
the store). -/
def runResearch (o : Oracle) (pkg ty : Str) (cache : Cache) :
    Except Unit PartRecord × Cache × List Event :=
  match researchPackage o pkg ty with
  | (.ok r, ev) => (.ok r, cacheSet cache (pkg ++ chars ":" ++ ty) r, ev)
  | (.error e, ev) => (.error e, cache, ev)

/-- The server `getPackageInfo` (part_000 lines 353-368): on a hit
with `forceRefresh` false the cached record is returned with no
external activity; otherwise the research runs and is stored. -/
def getPackageInfo (o : Oracle) (pkg ty : Str) (forceRefresh : Bool)
    (cache : Cache) : Except Unit PartRecord × Cache × List Event :=
  if forceRefresh then runResearch o pkg ty cache
  else
    match cacheGet cache (pkg ++ chars ":" ++ ty) with
    | some r => (.ok r, cache, [])
    | none => runResearch o pkg ty cache

end Server

/-! ### The src pipeline (`src/utils/researchPackage.ts`,
`src/commands/rubyInstall.ts`) -/

/-- Enumeration `ProjectType` of `src/utils/detectProjectType.ts`. -/
inductive PType where
  | node
  | python
  | ruby
  | unknown
deriving DecidableEq, Repr

/-- A `repository` field of npm registry data: a string or an object
with optional `type`/`url` (only `url` is ever read). -/
inductive RepoVal where
  | plain (s : Str)
  | tagged (ty : Option Str) (url : Option Str)
deriving DecidableEq, Repr

/-- A `bugs` field: a string or an object with an optional `url`. -/
inductive BugsVal where
  | plain (s : Str)
  | tagged (url : Option Str)
deriving DecidableEq, Repr

/-- The `PackageInfo` interface of `src/utils/researchPackage.ts`
(lines 14-39); absent optional fields are `none`. -/
structure SrcPackageInfo where
  name : Str
  description : Option Str := none
  version : Option Str := none
  homepage : Option Str := none
  repository : Option RepoVal := none
  bugs : Option BugsVal := none
  license : Option Str := none
  author : Option Str := none
  keywords : Option (List Str) := none
  main : Option Str := none
  types : Option Str := none
  summary : Option Str := none
  authors : Option Str := none
deriving DecidableEq, Repr

/-- The `Research` interface (lines 41-48); `exampleCode`, `apiDocs`
and `additionalResources` are optional in the interface and absent on
the degraded path. -/
structure SrcResearch where
  packageInfo : SrcPackageInfo
  readme : Str
  exampleCode : Option (List Str) := none
  apiDocs : Option Str := none
  additionalResources : Option (List Str) := none
  packageType : PType
deriving DecidableEq, Repr

/-- JS `a || b` on two optional strings: `a` when present and
non-empty, else `b`. -/
def jsOrO (a b : Option Str) : Option Str :=
  match a with
  | some s => if s = [] then b else some s
  | none => b

/-- JS truthiness of an optional string. -/
def truthy (a : Option Str) : Bool :=
  match a with
  | some s => !s.isEmpty
  | none => false

/-- The npm registry response fields consumed by
`researchNpmPackage`. -/
structure NpmData where
  name : Str
  description : Option Str := none
  version : Option Str := none
  homepage : Option Str := none
  repository : Option RepoVal := none
  bugs : Option BugsVal := none
  license : Option Str := none
  author : Option Str := none
  keywords : Option (List Str) := none
  main : Option Str := none
  types : Option Str := none
  typings : Option Str := none
  readme : Option Str := none
deriving DecidableEq, Repr

/-- Function `getRepoUrl` (lines 401-410): a truthy string repository is
returned directly (the outer `if (packageData.repository)` filters the
empty string), an object yields its truthy `url`, anything else
`null`. -/
def getRepoUrl (d : NpmData) : Option Str :=
  match d.repository with
  | some (.plain s) => if s = [] then none else some s
  | some (.tagged _ (some url)) => if url = [] then none else some url
  | some (.tagged _ none) => none
  | none => none

/-- One attempt of `/github\.com[\/:]([^\/]+)\/([^\/\.]+)/` at the head
of `l`: the literal, one of `/` `:`, a non-empty slash-free owner
followed by `/`, a non-empty run free of `/` and `.`. -/
def ghAt (l : Str) : Option (Str × Str) :=
  if begins (chars "github.com") l then
    match l.drop 10 with
    | [] => none
    | c :: rest =>
      if c = '/' ∨ c = ':' then
        let owner := rest.takeWhile (fun x => x ≠ '/')
        match rest.dropWhile (fun x => x ≠ '/') with
        | '/' :: r2 =>
          if owner = [] then none
          else
            let repo := r2.takeWhile (fun x => ¬(x = '/' ∨ x = '.'))
            if repo = [] then none else some (owner, repo)
        | _ => none
      else none
  else none

/-- The leftmost match of the GitHub regex: try each start position in
turn. -/
def ghFind : Str → Option (Str × Str)
  | [] => none
  | c :: cs =>
    match ghAt (c :: cs) with
    | some r => some r
    | none => ghFind cs

/-- JS `String.prototype.replace` with a string pattern: first
occurrence only. -/
def replaceFirst (pat rep l : Str) : Str :=
  match splitFirst pat l with
  | some (b, r) => b ++ rep ++ r
  | none => l

/-- Function `parseGitHubUrl` (lines 412-425): leftmost match of
`/github\.com[\/:]([^\/]+)\/([^\/\.]+)/`, the repo group then has its
first `.git` removed (a no-op, the group can contain no dot). -/
def parseGitHubUrl (url : Str) : Option (Str × Str) :=
  (ghFind url).map (fun p => (p.1, replaceFirst (chars ".git") [] p.2))

/-- The raw-README URL built at lines 145-147. -/
def githubReadmeUrl (owner repo : Str) : Str :=
  chars "https://raw.githubusercontent.com/" ++ owner ++ chars "/" ++
    repo ++ chars "/master/README.md"

namespace Src

/-- Outcomes of the two network calls `researchNpmPackage` can make:
the registry `axios.get` (unguarded, a rejection throws out of the
adapter) and the raw-README `axios.get` (guarded). -/
structure NpmOracle where
  registry : Except Unit NpmData
  githubReadme : Except Unit Str
deriving Repr

/-- Function `researchNpmPackage` (lines 126-193).  The readme is the registry
readme when truthy; otherwise, when the repo URL mentions github.com
and parses, one raw-README fetch is attempted (a failure is caught and
leaves the readme empty). -/
def researchNpmPackage (o : NpmOracle) (pkg : Str) :
    Except Unit SrcResearch × List Event :=
  match o.registry with
  | .error e => (.error e, [.npmRegistryFetch])
  | .ok d =>
    let rdEv : Str × List Event :=
      match d.readme with
      | some s =>
        if s = [] then
          match getRepoUrl d with
          | some repoUrl =>
            if containsSub (chars "github.com") repoUrl then
              match parseGitHubUrl repoUrl with
              | some (owner, repo) =>
                match o.githubReadme with
                | .ok rd => (rd, [.githubReadmeFetch (githubReadmeUrl owner repo)])
                | .error _ => ([], [.githubReadmeFetch (githubReadmeUrl owner repo)])
              | none => ([], [])
            else ([], [])
          | none => ([], [])
        else (s, [])
      | none =>
        match getRepoUrl d with
        | some repoUrl =>
          if containsSub (chars "github.com") repoUrl then
            match parseGitHubUrl repoUrl with
            | some (owner, repo) =>
              match o.githubReadme with
              | .ok rd => (rd, [.githubReadmeFetch (githubReadmeUrl owner repo)])
              | .error _ => ([], [.githubReadmeFetch (githubReadmeUrl owner repo)])
            | none => ([], [])
          else ([], [])
        | none => ([], [])
    let readme := rdEv.1
    let ars : List Str :=
      (match d.homepage with
       | some h => if h = [] then [] else [h]
       | none => []) ++
      (match d.bugs with
       | some (.tagged (some u)) => if u = [] then [] else [u]
       | _ => [])
    (.ok { packageInfo :=
             { name := d.name, description := d.description,
               version := d.version, homepage := d.homepage,
               repository := d.repository, bugs := d.bugs,
               license := d.license, author := d.author,
               keywords := d.keywords, main := d.main,
               types := jsOrO d.types d.typings },
           readme := readme,
           exampleCode := some (extractExampleCode readme),
           apiDocs := some [],
           additionalResources := some ars,
           packageType := .node },
     [.npmRegistryFetch] ++ rdEv.2)

end Src

/-! ### The src ruby adapter (`getRubyGemInfo` of
`src/commands/rubyInstall.ts` and `researchRubyPackage`) -/

/-- One attempt of `/\(([^)]+)\)/` at the head of `l`: an opening
paren, a non-empty run free of `)`, a closing paren. -/
def parenAt (l : Str) : Option Str :=
  match l with
  | '(' :: rest =>
    let grp := rest.takeWhile (fun x => x ≠ ')')
    if grp = [] then none
    else
      match rest.dropWhile (fun x => x ≠ ')') with
      | ')' :: _ => some grp
      | _ => none
  | _ => none

/-- Leftmost match of `/\(([^)]+)\)/`. -/
def parenFind : Str → Option Str
  | [] => none
  | c :: cs =>
    match parenAt (c :: cs) with
    | some g => some g
    | none => parenFind cs

/-- One attempt of `/\n\s+(.*)/` at the head of `l`: a newline, at
least one whitespace character (greedy), then the rest of the line. -/
def summaryAt (l : Str) : Option Str :=
  match l with
  | '\n' :: c :: rest =>
    if jsWs c then
      some (((c :: rest).dropWhile jsWs).takeWhile (fun x => !lineTerm x))
    else none
  | _ => none

/-- Leftmost match of `/\n\s+(.*)/`. -/
def summaryFind : Str → Option Str
  | [] => none
  | c :: cs =>
    match summaryAt (c :: cs) with
    | some g => some g
    | none => summaryFind cs

/-- One attempt of `/key(.+)/` (with `key` a literal such as
`homepage:`) at the head of `l`: the literal followed by a non-empty
run of non-line-terminator characters. -/
def lineAfterAt (pat l : Str) : Option Str :=
  if begins pat l then
    let g := (l.drop pat.length).takeWhile (fun x => !lineTerm x)
    if g = [] then none else some g
  else none

/-- Leftmost match of `/key(.+)/`. -/
def lineAfter (pat : Str) : Str → Option Str
  | [] => none
  | c :: cs =>
    match lineAfterAt pat (c :: cs) with
    | some g => some g
    | none => lineAfter pat cs

/-- The object `getRubyGemInfo` resolves with. -/
structure GemInfo where
  name : Str
  version : Option Str := none
  summary : Option Str := none
  homepage : Option Str := none
  authors : Option Str := none
  license : Option Str := none
deriving DecidableEq, Repr

namespace Src

/-- Outcomes of the external calls of the src ruby chain: the two
execs of `getRubyGemInfo`, the RubyGems.org fetch inside the inner
`try` of `researchRubyPackage`, the raw-README fetch, and the
RubyGems.org fetch of the outer `catch` path. -/
structure RubyOracle where
  gemInfoRemote : Except Unit Str
  gemSpec : Except Unit Str
  registry : Except Unit RubyGemsData
  githubReadme : Except Unit Str
  registryRetry : Except Unit RubyGemsData
deriving Repr

/-- Function `getRubyGemInfo` of `src/commands/rubyInstall.ts` (part_002 lines
102-162): run `gem info <name> --remote`; reject on an exec error, an
empty stdout or a stdout containing `ERROR`; parse the version with
`/\(([^)]+)\)/` (then `split(',')[0].trim()`) and the summary with
`/\n\s+(.*)/` (then `trim()`); then run `gem specification <name>` and,
when it succeeds with a truthy stdout, add `homepage:`/`authors:`/
`licenses:` line tails (each `trim()`ed). -/
def getRubyGemInfo (o : RubyOracle) (gem : Str) :
    Except Unit GemInfo × List Event :=
  match o.gemInfoRemote with
  | .error e => (.error e, [.gemInfoRemoteExec])
  | .ok out =>
    if out = [] ∨ containsSub (chars "ERROR") out then
      (.error (), [.gemInfoRemoteExec])
    else
      let version :=
        match parenFind out with
        | some g => some (trimChars ((jsSplit (chars ",") g).headD []))
        | none => none
      let summary :=
        match summaryFind out with
        | some g => some (trimChars g)
        | none => none
      let base : GemInfo := { name := gem, version := version, summary := summary }
      match o.gemSpec with
      | .ok spec =>
        if spec = [] then (.ok base, [.gemInfoRemoteExec, .gemSpecExec])
        else
          (.ok { base with
                 homepage := (lineAfter (chars "homepage:") spec).map trimChars,
                 authors := (lineAfter (chars "authors:") spec).map trimChars,
                 license := (lineAfter (chars "licenses:") spec).map trimChars },
           [.gemInfoRemoteExec, .gemSpecExec])
      | .error _ => (.ok base, [.gemInfoRemoteExec, .gemSpecExec])

/-- The `packageInfo` of the success path of `researchRubyPackage`
(lines 349-362). -/
def rubyPackageInfo (gemInfo : GemInfo) (gemData : RubyGemsData) :
    SrcPackageInfo :=
  { name := gemInfo.name,
    version := jsOrO gemInfo.version gemData.version,
    summary := jsOrO gemInfo.summary gemData.info,
    homepage := jsOrO gemInfo.homepage gemData.homepage_uri,
    license := gemInfo.license,
    authors := gemInfo.authors }

/-- Record `gemInfo` used directly as the `packageInfo` (line 366). -/
def packageInfoOfGemInfo (g : GemInfo) : SrcPackageInfo :=
  { name := g.name, version := g.version, summary := g.summary,
    homepage := g.homepage, authors := g.authors, license := g.license }

/-- Function `researchRubyPackage` (lines 299-399): `getRubyGemInfo` runs
first; only then is the RubyGems.org JSON endpoint fetched (for
additional resources and a GitHub readme); a fetch failure falls back
to the gem-tool data alone; a `getRubyGemInfo` rejection falls back to
one more RubyGems.org fetch, and failing that to the minimal record.
The adapter itself never throws. -/
def researchRubyPackage (o : RubyOracle) (pkg : Str) :
    SrcResearch × List Event :=
  match getRubyGemInfo o pkg with
  | (.ok gemInfo, ev0) =>
    match o.registry with
    | .ok gemData =>
      let ars : List Str :=
        (match gemData.source_code_uri with
         | some u => if u = [] then [] else [chars "Source: " ++ u]
         | none => []) ++
        (match gemData.homepage_uri with
         | some u => if u = [] then [] else [chars "Homepage: " ++ u]
         | none => []) ++
        (match gemData.documentation_uri with
         | some u => if u = [] then [] else [chars "Documentation: " ++ u]
         | none => [])
      let rdEv : Str × List Event :=
        match gemData.source_code_uri with
        | some u =>
          if u = [] then ([], [])
          else if containsSub (chars "github.com") u then
            match parseGitHubUrl u with
            | some (owner, repo) =>
              match o.githubReadme with
              | .ok rd => (rd, [.githubReadmeFetch (githubReadmeUrl owner repo)])
              | .error _ => ([], [.githubReadmeFetch (githubReadmeUrl owner repo)])
            | none => ([], [])
          else ([], [])
        | none => ([], [])
      ({ packageInfo := rubyPackageInfo gemInfo gemData,
         readme := rdEv.1,
         exampleCode := some (extractExampleCode rdEv.1),
         additionalResources := some ars,
         packageType := .ruby },
       ev0 ++ [.rubygemsApiFetch] ++ rdEv.2)
    | .error _ =>
      ({ packageInfo := packageInfoOfGemInfo gemInfo, readme := [],
         packageType := .ruby },
       ev0 ++ [.rubygemsApiFetch])
  | (.error _, ev0) =>
    match o.registryRetry with
    | .ok gemData =>
      ({ packageInfo :=
           { name := pkg, version := gemData.version,
             summary := gemData.info, homepage := gemData.homepage_uri },
         readme := [], packageType := .ruby },
       ev0 ++ [.rubygemsApiFetch])
    | .error _ =>
      ({ packageInfo := { name := pkg }, readme := [], packageType := .ruby },
       ev0 ++ [.rubygemsApiFetch])

/-- One research invocation's adapter outcomes.  The python adapter
(`researchPythonPackage`, lines 195-297) is not observed by any claim;
every path of it is guarded by a `catch` returning a record, so it is
supplied as a record directly. -/
structure Oracle where
  npm : NpmOracle
  python : SrcResearch
  ruby : RubyOracle
deriving Repr

/-- Function `researchPackage` of `src/utils/researchPackage.ts` (lines
50-124): dispatch on the project type (`UNKNOWN` falls back to the npm
adapter), normalise the optional fields with `|| []` and `|| ''`,
save the research data (`saveResearchData` swallows its own errors),
and convert any escaped exception into the minimal record
`{ packageInfo: { name }, readme: '', packageType }`. -/
def researchPackage (o : Oracle) (pkg : Str) (ptype : PType) :
    SrcResearch × List Event :=
  let body : Except Unit SrcResearch × List Event :=
    match ptype with
    | .node => researchNpmPackage o.npm pkg
    | .python => (.ok o.python, [.pythonAdapterRun])
    | .ruby =>
      let r := researchRubyPackage o.ruby pkg
      (.ok r.1, r.2)
    | .unknown => researchNpmPackage o.npm pkg
  match body with
  | (.ok r, ev) =>
    ({ packageInfo := r.packageInfo, readme := r.readme,
       exampleCode := some (r.exampleCode.getD []),
       apiDocs := some (r.apiDocs.getD []),
       additionalResources := some (r.additionalResources.getD []),
       packageType := ptype },
     ev ++ [.saveResearch])
  | (.error _, ev) =>
    ({ packageInfo := { name := pkg }, readme := [], packageType := ptype },
     ev ++ [.errorLogged])

end Src

/-! ### Sample oracles and records used by closed statements -/

/-- An oracle where every external call fails. -/
def oErr : Server.Oracle :=
  { detect := { npmView := .error (), pipShow := .error (), gemInfo := .error () },
    node := { viewJson := .error (), viewReadme := .error () },
    python := .error (),
    ruby := { registry := .notOk, gemInfoFirst := .error (),
              gemInfoRetry := .error (), readmeResult := [] } }

/-- An oracle realising a total ruby research failure that still
returns: the RubyGems.org response is not ok, the `gem info` fallback
succeeds but its output carries no `Version:`/`Summary:` marker, and
`fetchRubyReadme` yields an empty string (an ok GitHub README response
with an empty body). -/
def oRubyFail : Server.Oracle :=
  { detect := { npmView := .error (), pipShow := .error (), gemInfo := .error () },
    node := { viewJson := .error (), viewReadme := .error () },
    python := .error (),
    ruby := { registry := .notOk,
              gemInfoFirst := .ok (chars "nothing useful in this output"),
              gemInfoRetry := .error (), readmeResult := [] } }

/-- An oracle where the npm existence check succeeds (so `'auto'`
resolves to `node`) and the node branch returns a minimal record. -/
def oAutoNode : Server.Oracle :=
  { detect := { npmView := .ok (), pipShow := .error (), gemInfo := .error () },
    node := { viewJson := .ok [("name", .str (chars "pkg"))], viewReadme := .ok [] },
    python := .error (),
    ruby := { registry := .notOk, gemInfoFirst := .error (),
              gemInfoRetry := .error (), readmeResult := [] } }

/-- The degraded record produced by `oRubyFail` for package `pkg`:
metadata carrying only the name, empty readme. -/
def degradedPkgRuby : PartRecord :=
  { metadata := [("name", .str (chars "pkg"))], readme := [], examples := [],
    basicUsage := [], type := chars "ruby" }

/-- The record produced by `oAutoNode` for package `pkg`. -/
def recAutoNode : PartRecord :=
  { metadata := [("name", .str (chars "pkg"))], readme := [], examples := [],
    basicUsage := [], type := chars "node" }

/-- A sample cached record for witness statements. -/
def recSample : PartRecord :=
  { metadata := [("name", .str (chars "p"))], readme := chars "r",
    examples := [], basicUsage := [], type := chars "node" }

/-- A src-side oracle where every external call fails. -/
def oSrcErr : Src.Oracle :=
  { npm := { registry := .error (), githubReadme := .error () },
    python := { packageInfo := { name := chars "p" }, readme := [],
                packageType := .python },
    ruby := { gemInfoRemote := .error (), gemSpec := .error (),
              registry := .error (), githubReadme := .error (),
              registryRetry := .error () } }

/-- The RubyGems.org sample registry record used by the C7
counterexample. -/
def rgSample : RubyGemsData :=
  { version := some (chars "9.9"), info := some (chars "registry info"),
    homepage_uri := some (chars "https://rubygems.example") }

/-- A src ruby oracle in which every source succeeds. -/
def oSrcRubyOk : Src.RubyOracle :=
  { gemInfoRemote := .ok (chars "mygem (1.2.3)\n  A tool for things"),
    gemSpec := .ok (chars "homepage: https://example.com\nauthors: Ann"),
    registry := .ok rgSample,
    githubReadme := .error (),
    registryRetry := .error () }

/-- Readme projection of an adapter outcome (observation helper for
statements about the adapter result). -/
def readmeOf (e : Except Unit SrcResearch) : Option Str :=
  match e with
  | .ok r => some r.readme
  | .error _ => none

/-- A registry response with an embedded readme, for the C8 witness. -/
def npmWithReadme : NpmData :=
  { name := chars "left-pad", version := some (chars "1.3.0"),
    readme := some (chars "MY README"),
    repository := some (.tagged (some (chars "git"))
      (some (chars "https://github.com/left-pad/left-pad"))) }

/-! ### Trim and occurrence lemmas for the extractor claims -/

/-- The snippets `es` are derived, in document order, from disjoint
consecutive segments of the text: each snippet is the trimmed content
of a segment, and segments do not overlap. -/
inductive InOrder : Str → List Str → Prop where
  | nil (l : Str) : InOrder l []
  | cons (a b g rest : Str) (es : List Str) :
      trimChars b ≠ [] → InOrder rest es →
      InOrder (a ++ b ++ g ++ rest) (trimChars b :: es)

/-- Number of positions at which a triple backtick starts. -/
def ticksCount : Str → Nat
  | [] => 0
  | c :: cs => (if begins ticks (c :: cs) then 1 else 0) + ticksCount cs

theorem begins_eq {pat l : Str} (h : begins pat l = true) :
    l = pat ++ l.drop pat.length := by
  induction pat generalizing l with
  | nil => simp
  | cons p ps ih =>
    cases l with
    | nil => simp [begins] at h
    | cons c cs =>
      simp only [begins, Bool.and_eq_true, beq_iff_eq] at h
      obtain ⟨rfl, h2⟩ := h
      simpa using ih h2

theorem splitFirst_eq {pat l b r : Str} (h : splitFirst pat l = some (b, r)) :
    l = b ++ pat ++ r := by
  induction l generalizing b with
  | nil => simp [splitFirst] at h
  | cons c cs ih =>
    rw [splitFirst] at h
    by_cases hb : begins pat (c :: cs) = true
    · rw [if_pos hb] at h
      obtain ⟨rfl, rfl⟩ : b = [] ∧ (c :: cs).drop pat.length = r := by
        simpa using h
      simpa using begins_eq hb
    · rw [if_neg hb] at h
      cases hs : splitFirst pat cs with
      | none => rw [hs] at h; simp at h
      | some p =>
        obtain ⟨b0, r0⟩ := p
        rw [hs] at h
        obtain ⟨rfl, rfl⟩ : c :: b0 = b ∧ r0 = r := by simpa using h
        simpa using ih hs

theorem splitFirst_length {pat l b r : Str} (hpat : pat ≠ [])
    (h : splitFirst pat l = some (b, r)) : r.length < l.length := by
  have := splitFirst_eq h
  rw [this]
  simp only [List.length_append]
  have : 0 < pat.length := List.length_pos.mpr hpat
  omega

theorem begins_length {pat l : Str} (h : begins pat l = true) :
    pat.length ≤ l.length := by
  have := begins_eq h
  rw [this]
  simp

/-- Appending on the left preserves the presence of an occurrence. -/
theorem containsSub_append_left {pat r : Str} (x : Str)
    (h : containsSub pat r = true) : containsSub pat (x ++ r) = true := by
  induction x with
  | nil => simpa using h
  | cons c cs ih =>
    simp only [containsSub, Option.isSome_iff_exists] at ih ⊢
    obtain ⟨⟨b0, r0⟩, hs⟩ := ih
    rw [List.cons_append, splitFirst]
    by_cases hb : begins pat (c :: (cs ++ r)) = true
    · rw [if_pos hb]; exact ⟨_, rfl⟩
    · rw [if_neg hb, hs]; exact ⟨_, rfl⟩

theorem containsSub_of_tail {pat cs : Str} (c : Char)
    (h : containsSub pat cs = true) : containsSub pat (c :: cs) = true :=
  containsSub_append_left [c] h

theorem begins_containsSub {pat l : Str} (hpat : pat ≠ [])
    (h : begins pat l = true) : containsSub pat l = true := by
  cases l with
  | nil =>
    cases pat with
    | nil => exact absurd rfl hpat
    | cons p ps => simp [begins] at h
  | cons c cs => simp [containsSub, splitFirst, h]

theorem matchTag_eq (alts : List Str) (l : Str) :
    l = (matchTag alts l).1 ++ (matchTag alts l).2 := by
  induction alts with
  | nil => simp [matchTag]
  | cons a rest ih =>
    by_cases hb : begins a l = true
    · simpa [matchTag, hb] using begins_eq hb
    · simpa [matchTag, hb] using ih

theorem matchTag_length (alts : List Str) (l : Str) :
    (matchTag alts l).2.length ≤ l.length := by
  conv_rhs => rw [matchTag_eq alts l]
  simp

theorem dropWhile_length_le (p : Char → Bool) (l : Str) :
    (l.dropWhile p).length ≤ l.length := by
  induction l with
  | nil => simp
  | cons c cs ih =>
    rw [List.dropWhile_cons]
    by_cases hp : p c = true
    · rw [if_pos hp]; exact le_trans ih (Nat.le_succ _)
    · rw [if_neg hp]

theorem afterTag_length (alts : List Str) (ws : Bool) (r0 : Str) :
    (afterTag alts ws r0).length ≤ r0.length := by
  unfold afterTag
  cases ws with
  | false => simpa using matchTag_length alts r0
  | true =>
    simp only [if_pos rfl]
    exact le_trans (dropWhile_length_le _ _) (matchTag_length alts r0)

theorem findFence_length {alts : List Str} {ws : Bool} {l content rest : Str}
    (h : findFence alts ws l = some (content, rest)) :
    rest.length < l.length := by
  induction l with
  | nil => simp [findFence] at h
  | cons c cs ih =>
    rw [findFence] at h
    by_cases hb : begins ticks (c :: cs) = true
    · rw [if_pos hb] at h
      cases hs : splitFirst ticks (afterTag alts ws (cs.drop 2)) with
      | some p =>
        obtain ⟨content0, rest0⟩ := p
        rw [hs] at h
        have h6 : rest0 = rest := by
          have h7 : content0 = content ∧ rest0 = rest := by simpa using h
          exact h7.2
        have h1 : rest0.length < (afterTag alts ws (cs.drop 2)).length :=
          splitFirst_length (by decide) hs
        have h2 := afterTag_length alts ws (cs.drop 2)
        have h4 : (cs.drop 2).length ≤ cs.length := by simp
        simp only [List.length_cons]
        rw [← h6]
        omega
      | none =>
        rw [hs] at h
        exact Nat.lt_trans (ih h) (Nat.lt_succ_self _)
    · rw [if_neg hb] at h
      exact Nat.lt_trans (ih h) (Nat.lt_succ_self _)

theorem fencedAux_fuel {alts : List Str} {ws : Bool} :
    ∀ {f1 f2 : Nat} {l : Str}, l.length < f1 → l.length < f2 →
      fencedAux alts ws f1 l = fencedAux alts ws f2 l := by
  intro f1
  induction f1 with
  | zero => intro f2 l h1; omega
  | succ f1 ih =>
    intro f2 l h1 h2
    cases f2 with
    | zero => omega
    | succ f2 =>
      rw [fencedAux, fencedAux]
      cases hf : findFence alts ws l with
      | none => simp only [hf]
      | some p =>
        obtain ⟨content, rest⟩ := p
        simp only [hf]
        have hr : rest.length < l.length := findFence_length hf
        congr 1
        exact ih (by omega) (by omega)

theorem fenced_none {alts : List Str} {ws : Bool} {l : Str}
    (h : findFence alts ws l = none) : fenced alts ws l = [] := by
  rw [fenced, fencedAux, h]

theorem fenced_some {alts : List Str} {ws : Bool} {l content rest : Str}
    (h : findFence alts ws l = some (content, rest)) :
    fenced alts ws l =
      (if trimChars content = [] then [] else [trimChars content]) ++
        fenced alts ws rest := by
  have hr : rest.length < l.length := findFence_length h
  rw [fenced, fenced, fencedAux]
  simp only [h]
  congr 1
  apply fencedAux_fuel
  · omega
  · omega

/-! ### Shared orchestrator lemmas -/

theorem cacheGet_cacheSet (c : Server.Cache) (k : Str) (v : PartRecord) :
    Server.cacheGet (Server.cacheSet c k v) k = some v := by
  induction c with
  | nil => simp [Server.cacheGet, Server.cacheSet]
  | cons kv rest ih =>
    obtain ⟨k0, v0⟩ := kv
    by_cases hk : k0 = k
    · simp [Server.cacheGet, Server.cacheSet, hk]
    · simp [Server.cacheGet, Server.cacheSet, hk, ih]

theorem researchPackage_starts (o : Server.Oracle) (pkg ty : Str) :
    ∃ t, (Server.researchPackage o pkg ty).2 = .researchStarted :: t := by
  unfold Server.researchPackage
  cases (Server.dispatch o pkg ty).2.1 <;> exact ⟨_, rfl⟩

theorem getPackageInfo_hit (o : Server.Oracle) (pkg ty : Str)
    (c : Server.Cache) (r : PartRecord)
    (h : Server.cacheGet c (pkg ++ chars ":" ++ ty) = some r) :
    Server.getPackageInfo o pkg ty false c = (.ok r, c, []) := by
  unfold Server.getPackageInfo
  rw [if_neg (by simp), h]

theorem getPackageInfo_run (o : Server.Oracle) (pkg ty : Str)
    (c : Server.Cache) (forceRefresh : Bool)
    (h : forceRefresh = true ∨ Server.cacheGet c (pkg ++ chars ":" ++ ty) = none) :
    Server.getPackageInfo o pkg ty forceRefresh c =
      Server.runResearch o pkg ty c := by
  rcases h with h | h
  · subst h
    rfl
  · cases forceRefresh
    · unfold Server.getPackageInfo
      rw [if_neg (by simp), h]
    · rfl

theorem runResearch_ok (o : Server.Oracle) (pkg ty : Str) (c : Server.Cache)
    (r : PartRecord) (ev : List Event)
    (h : Server.researchPackage o pkg ty = (.ok r, ev)) :
    Server.runResearch o pkg ty c =
      (.ok r, Server.cacheSet c (pkg ++ chars ":" ++ ty) r, ev) := by
  unfold Server.runResearch
  rw [h]

theorem detectPackageType_concrete (d : Server.DetectOracle) :
    (Server.detectPackageType d).1 = chars "node" ∨
    (Server.detectPackageType d).1 = chars "python" ∨
    (Server.detectPackageType d).1 = chars "ruby" := by
  obtain ⟨n, p, g⟩ := d
  cases n <;> cases p <;> cases g <;> simp [Server.detectPackageType]

theorem dispatch_auto_type (o : Server.Oracle) (pkg : Str) :
    (Server.dispatch o pkg (chars "auto")).1 =
      (Server.detectPackageType o.detect).1 := by
  obtain ⟨dt, nd, py, rb⟩ := o
  obtain ⟨n, p, g⟩ := dt
  cases n <;> cases p <;> cases g <;> rfl

/-! ### C2 -/

/-- C2: for every package name and ecosystem argument, when
`forceRefresh` is false and a cache entry exists for the key, the
cached record is returned unchanged, the cache is untouched and no
external call happens (the trace is empty, for every possible adapter
behaviour); when `forceRefresh` is true the research pipeline runs —
the trace begins with the research start — even when an entry
exists. -/
theorem cache_hit_skips_refresh_invokes :
    (∀ (o : Server.Oracle) (pkg ty : Str) (c : Server.Cache) (r : PartRecord),
       Server.cacheGet c (pkg ++ chars ":" ++ ty) = some r →
       Server.getPackageInfo o pkg ty false c = (.ok r, c, [])) ∧
    (∀ (o : Server.Oracle) (pkg ty : Str) (c : Server.Cache),
       ∃ t, (Server.getPackageInfo o pkg ty true c).2.2 =
         .researchStarted :: t) := by
  constructor
  · exact fun o pkg ty c r h => getPackageInfo_hit o pkg ty c r h
  · intro o pkg ty c
    rw [getPackageInfo_run o pkg ty c true (Or.inl rfl)]
    obtain ⟨t, ht⟩ := researchPackage_starts o pkg ty
    unfold Server.runResearch
    cases hres : Server.researchPackage o pkg ty with
    | mk res ev =>
      rw [hres] at ht
      cases res <;> exact ⟨t, by simpa using ht⟩

/-- Witness for C2 at a concrete pre-populated cache. -/
theorem cache_hit_skips_refresh_invokes_witness :
    Server.getPackageInfo oErr (chars "p") (chars "node") false
      [(chars "p:node", recSample)] =
      (.ok recSample, [(chars "p:node", recSample)], []) ∧
    ∃ t, (Server.getPackageInfo oErr (chars "p") (chars "node") true
      [(chars "p:node", recSample)]).2.2 = .researchStarted :: t :=
  ⟨cache_hit_skips_refresh_invokes.1 oErr (chars "p") (chars "node")
      [(chars "p:node", recSample)] recSample (by decide),
   cache_hit_skips_refresh_invokes.2 oErr (chars "p") (chars "node")
      [(chars "p:node", recSample)]⟩

/-! ### C1 -/

/-- C1 counterexample: under `oRubyFail` the research produces exactly
the degraded record (metadata only the name, empty readme), the
orchestrator writes it to the cache, and a subsequent non-refresh call
for the same identity returns the stored failure with an empty trace —
no adapter chain attempt — contradicting the claim that degraded
records are never cached and that the next call retries. -/
theorem degraded_record_is_cached_counterexample :
    (Server.getPackageInfo oRubyFail (chars "pkg") (chars "ruby") false []).1 =
      .ok degradedPkgRuby ∧
    degradedPkgRuby.metadata = [("name", .str (chars "pkg"))] ∧
    degradedPkgRuby.readme = [] ∧
    (Server.getPackageInfo oRubyFail (chars "pkg") (chars "ruby") false []).2.1 =
      [(chars "pkg:ruby", degradedPkgRuby)] ∧
    Server.getPackageInfo oRubyFail (chars "pkg") (chars "ruby") false
        [(chars "pkg:ruby", degradedPkgRuby)] =
      (.ok degradedPkgRuby, [(chars "pkg:ruby", degradedPkgRuby)], []) := by
  decide

/-- C1 amended: every successfully produced research record — degraded
or not — is written to the cache by the server orchestrator, and a
subsequent non-refresh call for the same identity returns the stored
record without attempting the adapter chain again. -/
theorem degraded_record_is_cached :
    ∀ (o : Server.Oracle) (pkg ty : Str) (c : Server.Cache)
      (r : PartRecord) (ev : List Event),
      Server.researchPackage o pkg ty = (.ok r, ev) →
      Server.cacheGet c (pkg ++ chars ":" ++ ty) = none →
      Server.getPackageInfo o pkg ty false c =
        (.ok r, Server.cacheSet c (pkg ++ chars ":" ++ ty) r, ev) ∧
      Server.getPackageInfo o pkg ty false
          (Server.cacheSet c (pkg ++ chars ":" ++ ty) r) =
        (.ok r, Server.cacheSet c (pkg ++ chars ":" ++ ty) r, []) := by
  intro o pkg ty c r ev hres hnone
  constructor
  · rw [getPackageInfo_run o pkg ty c false (Or.inr hnone),
        runResearch_ok o pkg ty c r ev hres]
  · exact getPackageInfo_hit o pkg ty _ r (cacheGet_cacheSet c _ r)

/-- Witness for the amended C1 at the concrete failing oracle. -/
theorem degraded_record_is_cached_witness :
    Server.getPackageInfo oRubyFail (chars "pkg") (chars "ruby") false [] =
      (.ok degradedPkgRuby,
       Server.cacheSet [] (chars "pkg" ++ chars ":" ++ chars "ruby") degradedPkgRuby,
       [.researchStarted, .rubyRegistryFetch, .gemInfoExec, .rubyReadmeFetch]) ∧
    Server.getPackageInfo oRubyFail (chars "pkg") (chars "ruby") false
        (Server.cacheSet [] (chars "pkg" ++ chars ":" ++ chars "ruby") degradedPkgRuby) =
      (.ok degradedPkgRuby,
       Server.cacheSet [] (chars "pkg" ++ chars ":" ++ chars "ruby") degradedPkgRuby,
       []) :=
  degraded_record_is_cached oRubyFail (chars "pkg") (chars "ruby") []
    degradedPkgRuby
    [.researchStarted, .rubyRegistryFetch, .gemInfoExec, .rubyReadmeFetch]
    (by decide) (by decide)

/-! ### C6 -/

/-- C6 counterexample: with the probe resolving `pkg` to `node`, a call
with ecosystem `'auto'` stores the record under the key `pkg:auto` —
even though the produced record's resolved type is `node` — and a later
call for the same package with the resolved ecosystem given explicitly
misses the cache and runs the whole research pipeline again, storing a
second entry under `pkg:node`. -/
theorem cache_key_uses_raw_type_counterexample :
    Server.getPackageInfo oAutoNode (chars "pkg") (chars "auto") false [] =
      (.ok recAutoNode, [(chars "pkg:auto", recAutoNode)],
       [.researchStarted, .detectNpmView, .npmViewJson, .npmViewReadme]) ∧
    recAutoNode.type = chars "node" ∧
    Server.cacheGet [(chars "pkg:auto", recAutoNode)] (chars "pkg:node") = none ∧
    Server.getPackageInfo oAutoNode (chars "pkg") (chars "node") false
        [(chars "pkg:auto", recAutoNode)] =
      (.ok recAutoNode,
       [(chars "pkg:auto", recAutoNode), (chars "pkg:node", recAutoNode)],
       [.researchStarted, .npmViewJson, .npmViewReadme]) := by
  decide

/-- C6 amended: the cache key is the pair of the package name and the
ecosystem argument exactly as passed (including `'auto'`); the
resolution to a concrete ecosystem happens inside the research call,
after the cache check, so the record's resolved type is concrete while
the key keeps the raw argument. -/
theorem cache_key_uses_raw_type :
    (∀ (o : Server.Oracle) (pkg ty : Str) (c : Server.Cache)
       (r : PartRecord) (ev : List Event),
       Server.cacheGet c (pkg ++ chars ":" ++ ty) = none →
       Server.researchPackage o pkg ty = (.ok r, ev) →
       Server.getPackageInfo o pkg ty false c =
         (.ok r, Server.cacheSet c (pkg ++ chars ":" ++ ty) r, ev)) ∧
    (∀ (o : Server.Oracle) (pkg : Str) (r : PartRecord) (ev : List Event),
       Server.researchPackage o pkg (chars "auto") = (.ok r, ev) →
       r.type = chars "node" ∨ r.type = chars "python" ∨ r.type = chars "ruby") := by
  constructor
  · intro o pkg ty c r ev hnone hres
    rw [getPackageInfo_run o pkg ty c false (Or.inr hnone),
        runResearch_ok o pkg ty c r ev hres]
  · intro o pkg r ev hres
    have htype : r.type = (Server.dispatch o pkg (chars "auto")).1 := by
      unfold Server.researchPackage at hres
      cases hd : (Server.dispatch o pkg (chars "auto")).2.1 with
      | ok b => rw [hd] at hres; cases hres; rfl
      | error e => rw [hd] at hres; cases hres
    rw [htype, dispatch_auto_type]
    exact detectPackageType_concrete o.detect

/-- Witness for the amended C6 at the concrete auto-resolving oracle. -/
theorem cache_key_uses_raw_type_witness :
    Server.getPackageInfo oAutoNode (chars "pkg") (chars "auto") false [] =
      (.ok recAutoNode,
       Server.cacheSet [] (chars "pkg" ++ chars ":" ++ chars "auto") recAutoNode,
       [.researchStarted, .detectNpmView, .npmViewJson, .npmViewReadme]) ∧
    (recAutoNode.type = chars "node" ∨ recAutoNode.type = chars "python" ∨
      recAutoNode.type = chars "ruby") :=
  ⟨cache_key_uses_raw_type.1 oAutoNode (chars "pkg") (chars "auto") [] recAutoNode
     [.researchStarted, .detectNpmView, .npmViewJson, .npmViewReadme]
     (by decide) (by decide),
   cache_key_uses_raw_type.2 oAutoNode (chars "pkg") recAutoNode
     [.researchStarted, .detectNpmView, .npmViewJson, .npmViewReadme] (by decide)⟩

/-! ### C3 -/

/-- C3 counterexample: the embedded server's research operation is not
total at its boundary — when the node registry call throws, its
outermost catch logs and rethrows, so the caller receives the
exception instead of a degraded record. -/
theorem server_research_rethrows_counterexample :
    Server.researchPackage oErr (chars "pkg") (chars "node") =
      (.error (), [.researchStarted, .npmViewJson, .errorLogged]) := by
  decide

/-- C3 amended: the orchestrator of `src/utils/researchPackage.ts` is
total at its boundary — it always returns a record, converting an
adapter exception (only the npm adapter can throw, on a registry
failure, and it is reached for the node and unknown project types) into
the degraded record with only the requested name and an empty readme;
the python and ruby adapters never throw, so those paths always finish
through the normal save path.  The embedded server's `researchPackage`,
by contrast, rethrows (see the counterexample). -/
theorem src_research_total_degrades :
    (∀ (o : Src.Oracle) (pkg : Str) (t : PType),
       o.npm.registry = .error () → (t = .node ∨ t = .unknown) →
       Src.researchPackage o pkg t =
         ({ packageInfo := { name := pkg }, readme := [], packageType := t },
          [.npmRegistryFetch, .errorLogged])) ∧
    (∀ (o : Src.Oracle) (pkg : Str),
       (∃ r tr, Src.researchPackage o pkg .ruby = (r, tr ++ [.saveResearch])) ∧
       (∃ r tr, Src.researchPackage o pkg .python = (r, tr ++ [.saveResearch]))) := by
  constructor
  · intro o pkg t hreg ht
    rcases ht with rfl | rfl <;>
      simp [Src.researchPackage, Src.researchNpmPackage, hreg]
  · intro o pkg
    constructor
    · cases hr : Src.researchRubyPackage o.ruby pkg with
      | mk r ev =>
        exact ⟨{ packageInfo := r.packageInfo, readme := r.readme,
                 exampleCode := some (r.exampleCode.getD []),
                 apiDocs := some (r.apiDocs.getD []),
                 additionalResources := some (r.additionalResources.getD []),
                 packageType := .ruby }, ev,
               by simp [Src.researchPackage, hr]⟩
    · exact ⟨{ packageInfo := o.python.packageInfo, readme := o.python.readme,
               exampleCode := some (o.python.exampleCode.getD []),
               apiDocs := some (o.python.apiDocs.getD []),
               additionalResources := some (o.python.additionalResources.getD []),
               packageType := .python }, [.pythonAdapterRun],
             by simp [Src.researchPackage]⟩

/-- Witness for the amended C3 at the all-failing src oracle. -/
theorem src_research_total_degrades_witness :
    Src.researchPackage oSrcErr (chars "pkg") .node =
      ({ packageInfo := { name := chars "pkg" }, readme := [],
         packageType := .node },
       [.npmRegistryFetch, .errorLogged]) ∧
    (∃ r tr, Src.researchPackage oSrcErr (chars "pkg") .ruby =
      (r, tr ++ [.saveResearch])) :=
  ⟨src_research_total_degrades.1 oSrcErr (chars "pkg") .node (by decide)
     (Or.inl rfl),
   (src_research_total_degrades.2 oSrcErr (chars "pkg")).1⟩

/-! ### C4 -/

/-- C4: the ecosystem probe attempts the npm check first, then pip,
then gem; it returns the ecosystem of the first check that succeeds,
and returns `node` when all three fail.  The probe is a pure function
of the check outcomes, so the all-fail result is the same on every
call. -/
theorem probe_order_and_default :
    ∀ d : Server.DetectOracle,
      (d.npmView = .ok () →
        Server.detectPackageType d = (chars "node", [.detectNpmView])) ∧
      (d.npmView = .error () → d.pipShow = .ok () →
        Server.detectPackageType d =
          (chars "python", [.detectNpmView, .detectPipShow])) ∧
      (d.npmView = .error () → d.pipShow = .error () → d.gemInfo = .ok () →
        Server.detectPackageType d =
          (chars "ruby", [.detectNpmView, .detectPipShow, .detectGemInfo])) ∧
      (d.npmView = .error () → d.pipShow = .error () → d.gemInfo = .error () →
        Server.detectPackageType d =
          (chars "node", [.detectNpmView, .detectPipShow, .detectGemInfo])) := by
  intro d
  refine ⟨fun h1 => ?_, fun h1 h2 => ?_, fun h1 h2 h3 => ?_, fun h1 h2 h3 => ?_⟩ <;>
    simp [Server.detectPackageType, *]

/-- Witness for C4: all three checks failing yields `node`, after
attempting npm, pip and gem in that order. -/
theorem probe_order_and_default_witness :
    Server.detectPackageType
        { npmView := .error (), pipShow := .error (), gemInfo := .error () } =
      (chars "node", [.detectNpmView, .detectPipShow, .detectGemInfo]) :=
  (probe_order_and_default
    { npmView := .error (), pipShow := .error (), gemInfo := .error () }).2.2.2
    rfl rfl rfl

/-! ### C7 -/

theorem getRubyGemInfo_starts (o : Src.RubyOracle) (g : Str) :
    ∃ t, (Src.getRubyGemInfo o g).2 = .gemInfoRemoteExec :: t := by
  unfold Src.getRubyGemInfo
  cases o.gemInfoRemote with
  | error e => exact ⟨[], rfl⟩
  | ok out =>
    dsimp only
    by_cases h1 : out = [] ∨ containsSub (chars "ERROR") out = true
    · rw [if_pos h1]
      exact ⟨[], rfl⟩
    · rw [if_neg h1]
      cases o.gemSpec with
      | ok spec =>
        dsimp only
        by_cases h2 : spec = []
        · rw [if_pos h2]; exact ⟨_, rfl⟩
        · rw [if_neg h2]; exact ⟨_, rfl⟩
      | error e => exact ⟨_, rfl⟩

/-- C7 counterexample: in the src ruby adapter the very first external
call is the local gem tool (`gem info --remote` inside
`getRubyGemInfo`), made before the RubyGems.org endpoint and although
that endpoint succeeds in this run — so the canonical JSON endpoint is
not tried first, and the local tool is not reserved for endpoint
failure. -/
theorem src_ruby_tool_first_counterexample :
    (Src.researchRubyPackage oSrcRubyOk (chars "mygem")).2 =
      [.gemInfoRemoteExec, .gemSpecExec, .rubygemsApiFetch] ∧
    oSrcRubyOk.registry = .ok rgSample ∧
    (Src.researchRubyPackage oSrcRubyOk (chars "mygem")).2.head? ≠
      some .rubygemsApiFetch := by
  decide

/-- C7 amended: the embedded server's ruby adapter tries the canonical
RubyGems.org JSON endpoint first — its trace always begins with the
registry fetch, and the `gem info` metadata fallback (whose parse
locates the `Version:` and `Summary:` substrings) runs exactly when the
endpoint did not return an ok response; the src ruby adapter instead
invokes the local gem tool before the endpoint on every run. -/
theorem ruby_adapter_source_order :
    (∀ (o : Server.RubyOracle) (pkg : Str),
       (Server.rubyCase o pkg).2.head? = some .rubyRegistryFetch) ∧
    (∀ (o : Server.RubyOracle) (pkg : Str) (d : RubyGemsData),
       o.registry = .ok d → .gemInfoExec ∉ (Server.rubyCase o pkg).2) ∧
    (∀ (o : Server.RubyOracle) (pkg : Str),
       o.registry = .notOk ∨ o.registry = .err →
       .gemInfoExec ∈ (Server.rubyCase o pkg).2) ∧
    (∀ (o : Server.RubyOracle) (pkg out : Str),
       o.registry = .notOk → o.gemInfoFirst = .ok out →
       (Server.rubyCase o pkg).1.metadata = Server.gemParse pkg out) ∧
    (Server.gemParse (chars "mygem")
        (chars "irrelevant header\nVersion: 1.2.3\nSummary: a tool") =
      [("name", .str (chars "mygem")), ("version", .str (chars "1.2.3")),
       ("description", .str (chars "a tool"))]) ∧
    (∀ (o : Src.RubyOracle) (pkg : Str),
       (Src.researchRubyPackage o pkg).2.head? = some .gemInfoRemoteExec) := by
  refine ⟨?_, ?_, ?_, ?_, by decide, ?_⟩
  · intro o pkg
    unfold Server.rubyCase
    cases o.registry with
    | ok d => rfl
    | notOk =>
      cases o.gemInfoFirst with
      | ok out => rfl
      | error e => cases o.gemInfoRetry <;> rfl
    | err => cases o.gemInfoRetry <;> rfl
  · intro o pkg d h
    simp [Server.rubyCase, h]
  · intro o pkg h
    rcases h with h | h
    · cases hg : o.gemInfoFirst with
      | ok out => simp [Server.rubyCase, h, hg]
      | error e => cases hr : o.gemInfoRetry <;> simp [Server.rubyCase, h, hg, hr]
    · cases hr : o.gemInfoRetry <;> simp [Server.rubyCase, h, hr]
  · intro o pkg out h1 h2
    simp [Server.rubyCase, h1, h2]
  · intro o pkg
    unfold Src.researchRubyPackage
    obtain ⟨t, ht⟩ := getRubyGemInfo_starts o pkg
    cases hg : Src.getRubyGemInfo o pkg with
    | mk res ev0 =>
      rw [hg] at ht
      simp only at ht
      subst ht
      cases res with
      | ok gemInfo => cases o.registry <;> rfl
      | error e => cases o.registryRetry <;> rfl

/-- Witness for the amended C7: the server adapter under a failing
endpoint with a succeeding `gem info`. -/
theorem ruby_adapter_source_order_witness :
    (Server.rubyCase oRubyFail.ruby (chars "pkg")).2.head? =
      some .rubyRegistryFetch ∧
    .gemInfoExec ∈ (Server.rubyCase oRubyFail.ruby (chars "pkg")).2 ∧
    (Server.rubyCase oRubyFail.ruby (chars "pkg")).1.metadata =
      Server.gemParse (chars "pkg") (chars "nothing useful in this output") ∧
    (Src.researchRubyPackage oSrcRubyOk (chars "mygem")).2.head? =
      some .gemInfoRemoteExec :=
  ⟨ruby_adapter_source_order.1 oRubyFail.ruby (chars "pkg"),
   ruby_adapter_source_order.2.2.1 oRubyFail.ruby (chars "pkg")
     (Or.inl (by decide)),
   ruby_adapter_source_order.2.2.2.1 oRubyFail.ruby (chars "pkg")
     (chars "nothing useful in this output") (by decide) (by decide),
   ruby_adapter_source_order.2.2.2.2.2 oSrcRubyOk (chars "mygem")⟩

/-! ### C8 -/

/-- C8: when the npm registry response carries a non-empty readme, the
adapter's trace is exactly the single registry fetch — neither the
secondary repository README fetch nor any local-tool fallback runs (the
src npm adapter has no local-tool step at all) — and the returned
readme is the registry one; conversely a repository README fetch can
only appear in the trace when the registry readme was absent or
empty. -/
theorem npm_chain_short_circuit :
    (∀ (o : Src.NpmOracle) (pkg : Str) (d : NpmData) (s : Str),
       o.registry = .ok d → d.readme = some s → s ≠ [] →
       (Src.researchNpmPackage o pkg).2 = [.npmRegistryFetch] ∧
       readmeOf (Src.researchNpmPackage o pkg).1 = some s) ∧
    (∀ (o : Src.NpmOracle) (pkg : Str) (u : Str),
       .githubReadmeFetch u ∈ (Src.researchNpmPackage o pkg).2 →
       ∃ d, o.registry = .ok d ∧ truthy d.readme = false) := by
  constructor
  · intro o pkg d s h1 h2 h3
    refine ⟨by simp [Src.researchNpmPackage, h1, h2, h3], ?_⟩
    simp [readmeOf, Src.researchNpmPackage, h1, h2, h3]
  · intro o pkg u hmem
    cases h1 : o.registry with
    | error e =>
      rw [Src.researchNpmPackage, h1] at hmem
      simp at hmem
    | ok d =>
      refine ⟨d, rfl, ?_⟩
      cases h2 : d.readme with
      | none => rfl
      | some s =>
        by_cases h3 : s = []
        · subst h3; rfl
        · exfalso
          rw [Src.researchNpmPackage, h1] at hmem
          simp only [h2] at hmem
          rw [if_neg h3] at hmem
          simp at hmem

/-- Witness for C8: a primary response with a readme short-circuits. -/
theorem npm_chain_short_circuit_witness :
    ((Src.researchNpmPackage
        { registry := .ok npmWithReadme, githubReadme := .ok (chars "GH") }
        (chars "left-pad")).2 = [.npmRegistryFetch] ∧
     readmeOf (Src.researchNpmPackage
        { registry := .ok npmWithReadme, githubReadme := .ok (chars "GH") }
        (chars "left-pad")).1 = some (chars "MY README")) :=
  npm_chain_short_circuit.1
    { registry := .ok npmWithReadme, githubReadme := .ok (chars "GH") }
    (chars "left-pad") npmWithReadme (chars "MY README") (by decide) (by decide)
    (by decide)

/-! ### C10 -/

theorem ghAt_props {l : Str} {o r : Str} (h : ghAt l = some (o, r)) :
    (∀ c ∈ o, c ≠ '/') ∧ (∀ c ∈ r, c ≠ '/' ∧ c ≠ '.') := by
  unfold ghAt at h
  split at h
  case isFalse => simp at h
  split at h
  case h_1 => simp at h
  case h_2 =>
    dsimp only at h
    split at h
    case isFalse => simp at h
    split at h
    case h_2 => simp at h
    case h_1 =>
      split at h
      case isTrue => simp at h
      case isFalse =>
        split at h
        case isTrue => simp at h
        case isFalse =>
          rw [Option.some_inj] at h
          have ho := congrArg Prod.fst h
          have hr := congrArg Prod.snd h
          dsimp only at ho hr
          constructor
          · intro a ha
            rw [← ho] at ha
            have hp := List.mem_takeWhile_imp ha
            simpa using hp
          · intro a ha
            rw [← hr] at ha
            have hp := List.mem_takeWhile_imp ha
            have h2 : ¬(a = '/' ∨ a = '.') := by simpa using hp
            exact ⟨fun hc => h2 (Or.inl hc), fun hc => h2 (Or.inr hc)⟩

theorem ghAt_begins {l : Str} {p : Str × Str} (h : ghAt l = some p) :
    begins (chars "github.com") l = true := by
  unfold ghAt at h
  by_cases h1 : begins (chars "github.com") l = true
  · exact h1
  · rw [if_neg h1] at h; exact absurd h (by simp)

theorem ghFind_props {l : Str} {o r : Str} (h : ghFind l = some (o, r)) :
    (∀ c ∈ o, c ≠ '/') ∧ (∀ c ∈ r, c ≠ '/' ∧ c ≠ '.') := by
  induction l with
  | nil => exact absurd h (by simp [ghFind])
  | cons c cs ih =>
    rw [ghFind] at h
    cases ha : ghAt (c :: cs) with
    | some p =>
      rw [ha] at h
      obtain ⟨rfl⟩ : p = (o, r) := by simpa using h
      exact ghAt_props ha
    | none => rw [ha] at h; exact ih h

theorem ghFind_containsSub {l : Str} {p : Str × Str} (h : ghFind l = some p) :
    containsSub (chars "github.com") l = true := by
  induction l with
  | nil => exact absurd h (by simp [ghFind])
  | cons c cs ih =>
    rw [ghFind] at h
    cases ha : ghAt (c :: cs) with
    | some q => exact begins_containsSub (by decide) (ghAt_begins ha)
    | none =>
      rw [ha] at h
      exact containsSub_of_tail c (ih h)

theorem replaceFirst_of_not_mem {r : Str} (h : '.' ∉ r) :
    replaceFirst (chars ".git") [] r = r := by
  unfold replaceFirst
  cases hs : splitFirst (chars ".git") r with
  | none => rfl
  | some p =>
    obtain ⟨b, rest⟩ := p
    exfalso
    apply h
    rw [splitFirst_eq hs]
    simp [chars]

/-- C10: `parseGitHubUrl` returns `null` — in particular whenever the
input has no `github.com` occurrence — or an owner/repo pair in which
the owner contains no slash and the repo contains neither slash nor dot
(so the first `.git` replacement is a no-op); a repository name with a
dot, such as `socket.io`, is truncated at the first dot, and the
secondary README URL is built from the truncated name. -/
theorem parse_github_url_invariant :
    (∀ url : Str,
       parseGitHubUrl url = none ∨
       ∃ o r, parseGitHubUrl url = some (o, r) ∧
         (∀ c ∈ o, c ≠ '/') ∧ (∀ c ∈ r, c ≠ '/' ∧ c ≠ '.')) ∧
    (∀ url : Str, containsSub (chars "github.com") url = false →
       parseGitHubUrl url = none) ∧
    parseGitHubUrl (chars "https://github.com/socketio/socket.io") =
      some (chars "socketio", chars "socket") ∧
    githubReadmeUrl (chars "socketio") (chars "socket") =
      chars "https://raw.githubusercontent.com/socketio/socket/master/README.md" := by
  refine ⟨?_, ?_, by decide, by decide⟩
  · intro url
    cases hg : ghFind url with
    | none => exact Or.inl (by simp [parseGitHubUrl, hg])
    | some p =>
      obtain ⟨o, r⟩ := p
      obtain ⟨ho, hr⟩ := ghFind_props hg
      have hnd : '.' ∉ r := fun hm => (hr _ hm).2 rfl
      exact Or.inr ⟨o, r,
        by simp [parseGitHubUrl, hg, replaceFirst_of_not_mem hnd], ho, hr⟩
  · intro url hno
    cases hg : ghFind url with
    | none => simp [parseGitHubUrl, hg]
    | some p =>
      rw [ghFind_containsSub hg] at hno
      exact absurd hno (by simp)

/-- Witness for C10 at a URL without any GitHub pattern. -/
theorem parse_github_url_invariant_witness :
    parseGitHubUrl (chars "https://example.com/foo") = none :=
  parse_github_url_invariant.2.1 (chars "https://example.com/foo") (by decide)

theorem trimL_cons_ws {c : Char} (l : Str) (h : jsWs c = true) :
    trimL (c :: l) = trimL l := by
  simp [trimL, List.dropWhile_cons, h]

theorem trimL_cons_not_ws {c : Char} (l : Str) (h : jsWs c = false) :
    trimL (c :: l) = c :: l := by
  simp [trimL, List.dropWhile_cons, h]

theorem trimL_head {x : Str} {c : Char} {t : Str} (h : trimL x = c :: t) :
    jsWs c = false := by
  induction x with
  | nil => simp [trimL] at h
  | cons d x ih =>
    by_cases hd : jsWs d = true
    · rw [trimL_cons_ws x hd] at h
      exact ih h
    · rw [trimL_cons_not_ws x (by simpa using hd)] at h
      cases h
      simpa using hd

theorem trimL_trimL (l : Str) : trimL (trimL l) = trimL l := by
  cases h : trimL l with
  | nil => simp [trimL]
  | cons c t => exact trimL_cons_not_ws t (trimL_head h)

theorem trimR_pre (l : Str) : ∃ w, l = trimR l ++ w := by
  refine ⟨(l.reverse.takeWhile jsWs).reverse, ?_⟩
  unfold trimR trimL
  conv_lhs => rw [← l.reverse_reverse, ← @List.takeWhile_append_dropWhile Char jsWs l.reverse]
  rw [List.reverse_append]

theorem trimR_cons_nil_of {l : Str} {c : Char} {t : Str}
    (h : trimR l = []) (hl : l = c :: t) (hc : jsWs c = false) : False := by
  have h2 : trimL l.reverse = [] := by
    have := congrArg List.reverse h
    simpa [trimR] using this
  unfold trimL at h2
  rw [List.dropWhile_eq_nil_iff] at h2
  exact absurd (by simpa using h2 c (by simp [hl])) (by simpa using hc)

theorem trimR_append_nl (y : Str) : trimR (y ++ ['\n']) = trimR y := by
  unfold trimR
  rw [List.reverse_append]
  simp only [List.reverse_cons, List.reverse_nil, List.nil_append,
    List.singleton_append]
  rw [trimL_cons_ws _ (by decide)]

theorem trimL_trimR_fix {y : Str}
    (hy : y = [] ∨ ∃ c t, y = c :: t ∧ jsWs c = false) :
    trimL (trimR y) = trimR y := by
  rcases hy with rfl | ⟨c, t, rfl, hc⟩
  · simp [trimR, trimL]
  · cases h : trimR (c :: t) with
    | nil => simp [trimL]
    | cons d t2 =>
      obtain ⟨w, hw⟩ := trimR_pre (c :: t)
      rw [h] at hw
      have hd : d = c := by
        have := congrArg (fun z => z.headD c) hw
        simpa using this.symm
      subst hd
      exact trimL_cons_not_ws t2 hc

theorem trimL_shape (x : Str) :
    trimL x = [] ∨ ∃ c t, trimL x = c :: t ∧ jsWs c = false := by
  cases h : trimL x with
  | nil => exact Or.inl rfl
  | cons c t => exact Or.inr ⟨c, t, rfl, trimL_head h⟩

theorem trimR_trimR (y : Str) : trimR (trimR y) = trimR y := by
  unfold trimR
  rw [List.reverse_reverse, trimL_trimL]

theorem trim_idem (x : Str) : trimChars (trimChars x) = trimChars x := by
  unfold trimChars
  have h1 : trimL (trimR (trimL x)) = trimR (trimL x) := by
    apply trimL_trimR_fix
    rcases trimL_shape x with h | ⟨c, t, h, hc⟩
    · exact Or.inl h
    · exact Or.inr ⟨c, t, h, hc⟩
  rw [h1, trimR_trimR]

theorem trim_ne_nil {x : Str} {c : Char} {t : Str}
    (h : trimL x = c :: t) : trimChars x ≠ [] := by
  unfold trimChars
  intro hcon
  rw [h] at hcon
  exact trimR_cons_nil_of hcon rfl (trimL_head h)

theorem dropWhile_append_of_nil {p : Char → Bool} {a : Str} (b : Str)
    (h : a.dropWhile p = []) :
    (a ++ b).dropWhile p = b.dropWhile p := by
  induction a with
  | nil => simp
  | cons c a ih =>
    rw [List.dropWhile_cons] at h
    by_cases hc : p c = true
    · rw [List.cons_append, List.dropWhile_cons, if_pos hc]
      exact ih (by simpa [hc] using h)
    · rw [if_neg hc] at h
      cases h

theorem dropWhile_append_of_ne {p : Char → Bool} {a : Str} (b : Str)
    (h : a.dropWhile p ≠ []) :
    (a ++ b).dropWhile p = a.dropWhile p ++ b := by
  induction a with
  | nil => simp at h
  | cons c a ih =>
    rw [List.dropWhile_cons] at h
    by_cases hc : p c = true
    · rw [List.cons_append, List.dropWhile_cons, if_pos hc,
        List.dropWhile_cons, if_pos hc] at *
      exact ih (by simpa [hc] using h)
    · rw [List.cons_append, List.dropWhile_cons, if_neg hc,
        List.dropWhile_cons, if_neg hc]
      rfl

theorem trimL_append_of_nil {a : Str} (b : Str) (h : trimL a = []) :
    trimL (a ++ b) = trimL b := by
  unfold trimL at *
  exact dropWhile_append_of_nil b h

theorem trimL_append_of_ne {a : Str} (b : Str) (h : trimL a ≠ []) :
    trimL (a ++ b) = trimL a ++ b := by
  unfold trimL at *
  exact dropWhile_append_of_ne b h

theorem trimChars_trimL_nl {s : Str} {c : Char} {t : Str}
    (h : trimL s = c :: t) :
    trimChars (trimL s ++ ['\n']) = trimChars s := by
  unfold trimChars
  rw [h]
  have h2 : trimL ((c :: t) ++ ['\n']) = (c :: t) ++ ['\n'] := by
    rw [List.cons_append]
    exact trimL_cons_not_ws _ (trimL_head h)
  rw [h2, trimR_append_nl]

theorem trimChars_nl_wrap (s : Str) :
    trimChars ('\n' :: (s ++ ['\n'])) = trimChars s := by
  unfold trimChars
  rw [trimL_cons_ws _ (by decide)]
  cases h : trimL s with
  | nil =>
    rw [trimL_append_of_nil _ h]
    rfl
  | cons c t =>
    have hne : trimL s ≠ [] := by rw [h]; exact List.cons_ne_nil c t
    rw [trimL_append_of_ne _ hne, h]
    exact trimR_append_nl _

theorem containsSub_cons_elim {pat : Str} {c : Char} {cs : Str}
    (h : containsSub pat (c :: cs) = true) :
    begins pat (c :: cs) = true ∨ containsSub pat cs = true := by
  unfold containsSub at h
  rw [splitFirst] at h
  by_cases hb : begins pat (c :: cs) = true
  · exact Or.inl hb
  · rw [if_neg hb] at h
    right
    unfold containsSub
    cases hs : splitFirst pat cs with
    | none => rw [hs] at h; simp at h
    | some p => simp

theorem begins_ticks_nl {s : Str} (r : Str)
    (h : begins ticks (s ++ '\n' :: r) = true) :
    containsSub ticks s = true := by
  match s with
  | [] => simp [ticks, begins] at h
  | [c1] => simp [ticks, begins] at h
  | c1 :: c2 :: [] => simp [ticks, begins] at h
  | c1 :: c2 :: c3 :: s2 =>
    simp only [ticks, begins, List.cons_append, Bool.and_eq_true,
      beq_iff_eq] at h
    obtain ⟨rfl, rfl, rfl, _⟩ := h
    exact begins_containsSub (by decide) (by simp [ticks, begins])

theorem splitFirst_close {s : Str}
    (hc : containsSub ticks s = false) :
    splitFirst ticks (s ++ '\n' :: ticks) = some (s ++ ['\n'], []) := by
  induction s with
  | nil => decide
  | cons c s ih =>
    have hc2 : containsSub ticks s = false := by
      by_contra hcon
      rw [containsSub_of_tail c (by simpa using hcon)] at hc
      cases hc
    have hb : begins ticks ((c :: s) ++ '\n' :: ticks) = false := by
      by_contra hcon
      rw [begins_ticks_nl (ticks) (by simpa using hcon)] at hc
      cases hc
    rw [List.cons_append, splitFirst]
    rw [List.cons_append] at hb
    rw [if_neg (by simp [hb]), ih hc2]
    rfl

theorem containsSub_dropWhile {pat : Str} (p : Char → Bool) {l : Str}
    (h : containsSub pat (l.dropWhile p) = true) :
    containsSub pat l = true := by
  conv_lhs => rw [← @List.takeWhile_append_dropWhile Char p l]
  exact containsSub_append_left _ h

theorem findFence_open_some {alts : List Str} {ws : Bool} {X content rest : Str}
    (h : splitFirst ticks (afterTag alts ws X) = some (content, rest)) :
    findFence alts ws (ticks ++ X) = some (content, rest) := by
  show findFence alts ws ('\x60' :: '\x60' :: '\x60' :: X) = _
  rw [findFence,
    if_pos (show begins ticks ('\x60' :: '\x60' :: '\x60' :: X) = true from rfl)]
  simp only [List.drop_succ_cons, List.drop_zero]
  rw [h]

theorem fenced_wrap (alts : List Str) (ws : Bool) (lang s : Str)
    (htag : matchTag alts (lang ++ '\n' :: (s ++ '\n' :: ticks)) =
      (lang, '\n' :: (s ++ '\n' :: ticks)))
    (hs : containsSub ticks s = false) :
    fenced alts ws (ticks ++ (lang ++ '\n' :: (s ++ '\n' :: ticks))) =
      if trimChars s = [] then [] else [trimChars s] := by
  have hfe : fenced alts ws ([] : Str) = [] := fenced_none rfl
  cases ws with
  | false =>
    have hns : containsSub ticks ('\n' :: s) = false := by
      by_contra hcon
      rcases containsSub_cons_elim (c := '\n') (by simpa using hcon) with hb | hcc
      · simp [ticks, begins] at hb
      · rw [hcc] at hs; cases hs
    have hsp : splitFirst ticks
        (afterTag alts false (lang ++ '\n' :: (s ++ '\n' :: ticks))) =
        some ('\n' :: (s ++ ['\n']), []) := by
      show splitFirst ticks
        ((matchTag alts (lang ++ '\n' :: (s ++ '\n' :: ticks))).2) = _
      rw [htag]
      have := splitFirst_close (s := '\n' :: s) hns
      simpa using this
    rw [fenced_some (findFence_open_some hsp), hfe, List.append_nil,
      trimChars_nl_wrap]
  | true =>
    have hat : afterTag alts true (lang ++ '\n' :: (s ++ '\n' :: ticks)) =
        trimL (s ++ '\n' :: ticks) := by
      show ((matchTag alts (lang ++ '\n' :: (s ++ '\n' :: ticks))).2).dropWhile jsWs = _
      rw [htag]
      show trimL ('\n' :: (s ++ '\n' :: ticks)) = _
      rw [trimL_cons_ws _ (by decide)]
    cases hform : trimL s with
    | nil =>
      have hsp : splitFirst ticks
          (afterTag alts true (lang ++ '\n' :: (s ++ '\n' :: ticks))) =
          some ([], []) := by
        rw [hat, trimL_append_of_nil _ hform]
        decide
      rw [fenced_some (findFence_open_some hsp), hfe]
      have hempty : trimChars s = [] := by
        unfold trimChars
        rw [hform]
        rfl
      rw [hempty]
      rfl
    | cons c t =>
      have hne : trimL s ≠ [] := by rw [hform]; exact List.cons_ne_nil c t
      have hcs : containsSub ticks (trimL s) = false := by
        by_contra hcon
        have := containsSub_dropWhile jsWs (by simpa [trimL] using hcon)
        rw [this] at hs
        cases hs
      have hsp : splitFirst ticks
          (afterTag alts true (lang ++ '\n' :: (s ++ '\n' :: ticks))) =
          some (trimL s ++ ['\n'], []) := by
        rw [hat, trimL_append_of_ne _ hne]
        exact splitFirst_close hcs
      rw [fenced_some (findFence_open_some hsp), hfe, List.append_nil,
        trimChars_trimL_nl hform]

/-! ### C5 -/

/-- C5 counterexample: the language tag is not ignored — a block tagged
`python` fed to the src extractor yields the tag text as part of the
extracted snippet, not `[trim(s)]`.  (Only the tags of the regex
alternation are skipped; any other tag is captured by `([\s\S]*?)`.) -/
theorem fence_round_trip_counterexample :
    extractExampleCode
        (ticks ++ (chars "python" ++ '\n' :: (chars "print(1)" ++ '\n' :: ticks))) =
      [chars "python\nprint(1)"] ∧
    [chars "python\nprint(1)"] ≠ [trimChars (chars "print(1)")] := by
  decide

/-- C5 amended: the fence round-trip holds for the tags each extractor
recognises and for the untagged fence — for any string `s` free of
triple backticks, wrapping and extracting yields `[trim(s)]`, or `[]`
when `trim(s)` is empty; the recognised tags are
`javascript`/`js`/`typescript`/`ts` for the src extractor and
`javascript`/`js`/`python`/`py`/`ruby`/`rb` for the embedded server's
extractor.  For any other tag the tag text is prepended to the
extracted content (see the counterexample). -/
theorem fence_round_trip :
    ∀ (s lang : Str), containsSub ticks s = false →
      ((lang = [] ∨ lang ∈ srcTags) →
        extractExampleCode (ticks ++ (lang ++ '\n' :: (s ++ '\n' :: ticks))) =
          if trimChars s = [] then [] else [trimChars s]) ∧
      ((lang = [] ∨ lang ∈ serverTags) →
        extractExamplesFromReadme (ticks ++ (lang ++ '\n' :: (s ++ '\n' :: ticks))) =
          if trimChars s = [] then [] else [trimChars s]) := by
  intro s lang hs
  constructor
  · intro hmem
    show fenced srcTags true _ = _
    rcases hmem with rfl | hmem
    · exact fenced_wrap srcTags true [] s rfl hs
    · simp only [srcTags, List.mem_cons, List.not_mem_nil, or_false] at hmem
      rcases hmem with rfl | rfl | rfl | rfl <;>
        exact fenced_wrap srcTags true _ s rfl hs
  · intro hmem
    show fenced serverTags false _ = _
    rcases hmem with rfl | hmem
    · exact fenced_wrap serverTags false [] s rfl hs
    · simp only [serverTags, List.mem_cons, List.not_mem_nil, or_false] at hmem
      rcases hmem with rfl | rfl | rfl | rfl | rfl | rfl <;>
        exact fenced_wrap serverTags false _ s rfl hs

/-- Witness for the amended C5 on concrete tagged blocks. -/
theorem fence_round_trip_witness :
    extractExampleCode
        (ticks ++ (chars "js" ++ '\n' :: (chars " leftPad(1) " ++ '\n' :: ticks))) =
      (if trimChars (chars " leftPad(1) ") = [] then []
       else [trimChars (chars " leftPad(1) ")]) ∧
    extractExamplesFromReadme
        (ticks ++ (chars "rb" ++ '\n' :: (chars "puts 1" ++ '\n' :: ticks))) =
      (if trimChars (chars "puts 1") = [] then []
       else [trimChars (chars "puts 1")]) :=
  ⟨(fence_round_trip (chars " leftPad(1) ") (chars "js") (by decide)).1
     (Or.inr (by decide)),
   (fence_round_trip (chars "puts 1") (chars "rb") (by decide)).2
     (Or.inr (by decide))⟩

/-! ### C9 -/

theorem InOrder.prepend (x : Str) {l : Str} {es : List Str}
    (h : InOrder l es) : InOrder (x ++ l) es := by
  cases h with
  | nil => exact .nil _
  | cons a b g rest es hb ht =>
    have hx : x ++ (a ++ b ++ g ++ rest) = (x ++ a) ++ b ++ g ++ rest := by
      simp [List.append_assoc]
    rw [hx]
    exact .cons _ _ _ _ _ hb ht

theorem fenced_nil (alts : List Str) (ws : Bool) : fenced alts ws [] = [] :=
  fenced_none rfl

theorem findFence_decomp {alts : List Str} {ws : Bool} {l content rest : Str}
    (h : findFence alts ws l = some (content, rest)) :
    ∃ p0 p2, l = p0 ++ ticks ++ p2 ++ content ++ ticks ++ rest := by
  induction l with
  | nil => simp [findFence] at h
  | cons c cs ih =>
    rw [findFence] at h
    by_cases hb : begins ticks (c :: cs) = true
    · rw [if_pos hb] at h
      cases hsp : splitFirst ticks (afterTag alts ws (cs.drop 2)) with
      | some p =>
        obtain ⟨c0, r0⟩ := p
        rw [hsp] at h
        obtain ⟨he1, he2⟩ : c0 = content ∧ r0 = rest := by simpa using h
        subst he1
        subst he2
        refine ⟨[], (matchTag alts (cs.drop 2)).1 ++
          (if ws then ((matchTag alts (cs.drop 2)).2).takeWhile jsWs else []), ?_⟩
        have h1 : (c :: cs) = ticks ++ cs.drop 2 := by
          simpa using begins_eq hb
        have h2 : cs.drop 2 =
            (matchTag alts (cs.drop 2)).1 ++ (matchTag alts (cs.drop 2)).2 :=
          matchTag_eq _ _
        have h3 : (matchTag alts (cs.drop 2)).2 =
            (if ws then ((matchTag alts (cs.drop 2)).2).takeWhile jsWs else []) ++
              afterTag alts ws (cs.drop 2) := by
          cases ws with
          | true =>
            show _ = _ ++ ((matchTag alts (cs.drop 2)).2).dropWhile jsWs
            rw [if_pos rfl, List.takeWhile_append_dropWhile]
          | false =>
            show _ = _ ++ (matchTag alts (cs.drop 2)).2
            rw [if_neg (by simp), List.nil_append]
        have h4 : afterTag alts ws (cs.drop 2) = c0 ++ ticks ++ r0 :=
          splitFirst_eq hsp
        rw [h1]
        conv_lhs => rw [h2, h3, h4]
        simp [List.append_assoc]
      | none =>
        rw [hsp] at h
        obtain ⟨p0, p2, hp⟩ := ih h
        exact ⟨c :: p0, p2, by simp [hp]⟩
    · rw [if_neg hb] at h
      obtain ⟨p0, p2, hp⟩ := ih h
      exact ⟨c :: p0, p2, by simp [hp]⟩

theorem ticksCount_le_cons (c : Char) (cs : Str) :
    ticksCount cs ≤ ticksCount (c :: cs) := by
  rw [ticksCount]
  omega

theorem ticksCount_append_right (x y : Str) :
    ticksCount y ≤ ticksCount (x ++ y) := by
  induction x with
  | nil => simp
  | cons c cs ih =>
    rw [List.cons_append]
    exact le_trans ih (ticksCount_le_cons _ _)

theorem ticksCount_ticks_append (y : Str) :
    1 + ticksCount y ≤ ticksCount (ticks ++ y) := by
  show 1 + ticksCount y ≤ ticksCount ('\x60' :: '\x60' :: '\x60' :: y)
  have h1 : ticksCount y ≤ ticksCount ('\x60' :: '\x60' :: y) :=
    le_trans (ticksCount_le_cons _ _) (ticksCount_le_cons _ _)
  rw [ticksCount, if_pos (by rfl)]
  omega

theorem findFence_two_ticks {alts : List Str} {ws : Bool}
    {l content rest : Str}
    (h : findFence alts ws l = some (content, rest)) : 2 ≤ ticksCount l := by
  obtain ⟨p0, p2, hdec⟩ := findFence_decomp h
  rw [hdec]
  have e1 : p0 ++ ticks ++ p2 ++ content ++ ticks ++ rest =
      p0 ++ (ticks ++ (p2 ++ (content ++ (ticks ++ rest)))) := by
    simp [List.append_assoc]
  rw [e1]
  have s1 : ticksCount (ticks ++ rest) ≥ 1 := by
    have := ticksCount_ticks_append rest
    omega
  have s2 : ticksCount (content ++ (ticks ++ rest)) ≥ 1 :=
    le_trans s1 (ticksCount_append_right _ _)
  have s3 : ticksCount (p2 ++ (content ++ (ticks ++ rest))) ≥ 1 :=
    le_trans s2 (ticksCount_append_right _ _)
  have s4 := ticksCount_ticks_append (p2 ++ (content ++ (ticks ++ rest)))
  have s5 := ticksCount_append_right p0
    (ticks ++ (p2 ++ (content ++ (ticks ++ rest))))
  omega

theorem fenced_inOrder (alts : List Str) (ws : Bool) :
    ∀ l : Str, InOrder l (fenced alts ws l) := by
  have H : ∀ (n : Nat) (l : Str), l.length ≤ n →
      InOrder l (fenced alts ws l) := by
    intro n
    induction n with
    | zero =>
      intro l hl
      have : l = [] := by
        cases l with
        | nil => rfl
        | cons c cs => simp at hl
      subst this
      rw [fenced_nil]
      exact .nil []
    | succ n ih =>
      intro l hl
      cases hf : findFence alts ws l with
      | none =>
        rw [fenced_none hf]
        exact .nil l
      | some p =>
        obtain ⟨content, rest⟩ := p
        rw [fenced_some hf]
        obtain ⟨p0, p2, hdec⟩ := findFence_decomp hf
        have hrl : rest.length < l.length := findFence_length hf
        have hih := ih rest (by omega)
        by_cases ht : trimChars content = []
        · rw [if_pos ht, List.nil_append, hdec]
          exact InOrder.prepend _ hih
        · rw [if_neg ht, List.singleton_append, hdec]
          exact .cons (p0 ++ ticks ++ p2) content ticks rest _ ht hih
  exact fun l => H l.length l (le_refl _)

theorem fenced_mem (alts : List Str) (ws : Bool) :
    ∀ (l e : Str), e ∈ fenced alts ws l → trimChars e = e ∧ e ≠ [] := by
  have H : ∀ (n : Nat) (l : Str), l.length ≤ n → ∀ e,
      e ∈ fenced alts ws l → trimChars e = e ∧ e ≠ [] := by
    intro n
    induction n with
    | zero =>
      intro l hl e he
      have : l = [] := by
        cases l with
        | nil => rfl
        | cons c cs => simp at hl
      subst this
      rw [fenced_nil] at he
      cases he
    | succ n ih =>
      intro l hl e he
      cases hf : findFence alts ws l with
      | none =>
        rw [fenced_none hf] at he
        cases he
      | some p =>
        obtain ⟨content, rest⟩ := p
        rw [fenced_some hf] at he
        have hrl : rest.length < l.length := findFence_length hf
        rw [List.mem_append] at he
        rcases he with he | he
        · by_cases ht : trimChars content = []
          · rw [if_pos ht] at he
            cases he
          · rw [if_neg ht] at he
            have : e = trimChars content := by simpa using he
            subst this
            exact ⟨trim_idem content, ht⟩
        · exact ih rest (by omega) e he
  exact fun l e he => H l.length l (le_refl _) e he

theorem fenced_single_fence (alts : List Str) (ws : Bool) (l : Str)
    (h : ticksCount l ≤ 1) : fenced alts ws l = [] := by
  cases hf : findFence alts ws l with
  | none => exact fenced_none hf
  | some p =>
    obtain ⟨content, rest⟩ := p
    have := findFence_two_ticks hf
    omega

/-- C9: both extractors — total Lean functions of the whole input, so
extraction terminates on every string, malformed fences included — are
order-preserving: each returned snippet is the trimmed content of a
segment of the text, the segments appear in document order and do not
overlap; every snippet is trimmed and non-empty (blocks with empty
trimmed content are skipped); and a text with at most one triple
backtick — in particular an unterminated opening fence — contributes no
block. -/
theorem extract_total_in_order :
    (∀ l : Str, InOrder l (extractExampleCode l) ∧
       InOrder l (extractExamplesFromReadme l)) ∧
    (∀ l e : Str, e ∈ extractExampleCode l ∨ e ∈ extractExamplesFromReadme l →
       trimChars e = e ∧ e ≠ []) ∧
    (∀ l : Str, ticksCount l ≤ 1 →
       extractExampleCode l = [] ∧ extractExamplesFromReadme l = []) := by
  refine ⟨fun l => ⟨fenced_inOrder _ _ l, fenced_inOrder _ _ l⟩, ?_, ?_⟩
  · intro l e he
    rcases he with he | he
    · exact fenced_mem _ _ l e he
    · exact fenced_mem _ _ l e he
  · intro l h
    exact ⟨fenced_single_fence _ _ l h, fenced_single_fence _ _ l h⟩

/-- Witness for C9 at concrete inputs, including an unterminated
fence. -/
theorem extract_total_in_order_witness :
    InOrder (chars "a```js\nx\n```b")
      (extractExampleCode (chars "a```js\nx\n```b")) ∧
    (trimChars (chars "x") = chars "x" ∧ chars "x" ≠ []) ∧
    extractExampleCode (chars "open ```js only") = [] :=
  ⟨(extract_total_in_order.1 (chars "a```js\nx\n```b")).1,
   extract_total_in_order.2.1 (chars "a```js\nx\n```b") (chars "x")
     (Or.inl (by decide)),
   (extract_total_in_order.2.2 (chars "open ```js only") (by decide)).1⟩

end GPM
